import Mathlib

/-!
Verification development for the `earley-parser` JavaScript library
(`earley-parser.js`).  The definitions below are a shallow embedding of the
source: the `Tokenizer` class, the `Grammar` class with its `addRule` and
`parse` methods (the Earley predictor / scanner / completer machine), and the
supporting helpers `getNext`, `equalArrays` and `sameJSON`.  Regular
expressions are embedded as their source strings, with a matcher for the
fragment actually exercised by the library's textual anchoring operations:
literal characters, top-level alternation `|`, and the anchors `^` and `$`.
-/

set_option autoImplicit false

namespace EarleyJS

/-- JavaScript runtime values flowing through the tokenizer and the parser:
`null`, `undefined`, booleans, (integer) numbers, strings, arrays, and the
unique `expressionBuilderFlag` object created by `parse`. -/
inductive JVal where
  | vnull
  | vundef
  | vbool (b : Bool)
  | vnum (n : Int)
  | vstr (s : String)
  | varr (elems : List JVal)
  | vflag

mutual

/-- Boolean structural equality of values (used in place of a derived
decidable equality, which Lean does not generate for this nested type). -/
def jvalBEq : JVal → JVal → Bool
  | .vnull, .vnull => true
  | .vundef, .vundef => true
  | .vbool a, .vbool b => a == b
  | .vnum a, .vnum b => a == b
  | .vstr a, .vstr b => a == b
  | .varr xs, .varr ys => jvalListBEq xs ys
  | .vflag, .vflag => true
  | _, _ => false

/-- Elementwise `jvalBEq`. -/
def jvalListBEq : List JVal → List JVal → Bool
  | [], [] => true
  | x :: xs, y :: ys => jvalBEq x y && jvalListBEq xs ys
  | _, _ => false

end

/-- JavaScript truthiness of a value (`if ( next ) ...`, `if ( !result ) ...`). -/
def truthy : JVal → Bool
  | .vnull => false
  | .vundef => false
  | .vbool b => b
  | .vnum n => n != 0
  | .vstr s => s != ""
  | .varr _ => true
  | .vflag => true

mutual

/-- JavaScript string coercion of a value, as applied by `RegExp.test` to a
non-string argument. -/
def toJSString : JVal → String
  | .vnull => "null"
  | .vundef => "undefined"
  | .vbool b => if b then "true" else "false"
  | .vnum n => toString n
  | .vstr s => s
  | .varr l => String.intercalate "," (toJSStringList l)
  | .vflag => "[object Object]"

/-- String coercions of the elements of an array (for `Array.toString`). -/
def toJSStringList : List JVal → List String
  | [] => []
  | x :: xs => toJSString x :: toJSStringList xs

end

/-- JavaScript strict equality `===` restricted to the non-object values,
used by `sameJSON` after its object/array checks. -/
def jsStrictEq : JVal → JVal → Bool
  | .vnull, .vnull => true
  | .vundef, .vundef => true
  | .vbool a, .vbool b => a == b
  | .vnum a, .vnum b => a == b
  | .vstr a, .vstr b => a == b
  | _, _ => false

mutual

/-- The library's `sameJSON` comparator: structural JSON equality.  Arrays are
compared elementwise (their `Object.keys` are the index strings, so equal key
sets mean equal lengths); the only plain object in the model is the builder
flag, which has no keys; everything else falls through to strict equality. -/
def sameJSON : JVal → JVal → Bool
  | .varr xs, .varr ys => sameJSONList xs ys
  | .varr _, _ => false
  | _, .varr _ => false
  | .vflag, .vflag => true
  | .vflag, _ => false
  | _, .vflag => false
  | x, y => jsStrictEq x y

/-- Elementwise `sameJSON` on array contents. -/
def sameJSONList : List JVal → List JVal → Bool
  | [], [] => true
  | x :: xs, y :: ys => sameJSON x y && sameJSONList xs ys
  | _, _ => false

end

/-! ### A matcher for the regex-source fragment

The library manipulates regular expressions purely textually: `addRule`
stores `new RegExp( "^" + source + "$" )` and `addType` stores the source
unchanged when it already starts with `^`.  We give semantics to source
strings over the fragment used in this development: every `|` is a top-level
alternation bar, `^` asserts position 0, `$` asserts the end position, and
every other character is a literal. -/

/-- Split a regex source (as a character list) on its alternation bars. -/
def splitAlts : List Char → List (List Char)
  | [] => [[]]
  | c :: rest =>
    if c = '|' then [] :: splitAlts rest
    else
      match splitAlts rest with
      | [] => [[c]]
      | a :: as => (c :: a) :: as

/-- Match one bar-free alternative against `cs` starting at position `pos`;
returns the end position of the match on success. -/
def atomsMatch (cs : List Char) : List Char → Nat → Option Nat
  | [], pos => some pos
  | a :: rest, pos =>
    if a = '^' then (if pos = 0 then atomsMatch cs rest pos else none)
    else if a = '$' then (if pos = cs.length then atomsMatch cs rest pos else none)
    else
      match cs.get? pos with
      | some c => if c = a then atomsMatch cs rest (pos + 1) else none
      | none => none

/-- Try the alternatives of a pattern, in order, at position `p`. -/
def rxMatchAt (alts : List (List Char)) (cs : List Char) (p : Nat) : Option Nat :=
  alts.findSome? (fun alt => atomsMatch cs alt p)

/-- Leftmost match of a pattern in `cs`: the `(start, end)` positions of the
first successful match, scanning start positions left to right as the
JavaScript regex engine does. -/
def rxExecList (src : String) (cs : List Char) : Option (Nat × Nat) :=
  (List.range (cs.length + 1)).findSome? (fun p =>
    (rxMatchAt (splitAlts src.data) cs p).map (fun e => (p, e)))

/-- The `RegExp.exec` of the model: the matched substring (`match[0]`), if any. -/
def rxExec (src : String) (s : String) : Option String :=
  (rxExecList src s.data).map (fun pe => String.mk ((s.data.drop pe.1).take (pe.2 - pe.1)))

/-- The `RegExp.test` of the model: whether `exec` succeeds. -/
def rxTest (src : String) (s : String) : Bool :=
  (rxExecList src s.data).isSome

/-! ### The Tokenizer class -/

/-- One registered token type: the stored (anchored) regex source and the
formatter.  Only callable formatters are modelled (the template-string
formatter branch of `tokenize` is not exercised by any claim); the omitted
default formatter is the identity on the matched text. -/
structure TokenType where
  regexp : String
  formatter : String → JVal

/-- The `Tokenizer` class: an ordered list of token types. -/
structure Tokenizer where
  tokenTypes : List TokenType

/-- The `addType` method: anchor the source with `^(?:...)` unless it already
starts with `^`, then append the type. -/
def Tokenizer.addType (T : Tokenizer) (src : String)
    (formatter : String → JVal := fun s => .vstr s) : Tokenizer :=
  { tokenTypes := T.tokenTypes ++
      [{ regexp := if src.data.head? = some '^' then src else "^(?:" ++ src ++ ")",
         formatter := formatter }] }

/-- The inner `for ( let type of this.tokenTypes )` loop of `tokenize`: the
first token type whose regex matches, together with `match[0]`. -/
def firstMatch : List TokenType → String → Option (TokenType × String)
  | [], _ => none
  | ty :: rest, input =>
    match rxExec ty.regexp input with
    | some m0 => some (ty, m0)
    | none => firstMatch rest input

/-- One pass of the `tokenize` loop on a nonempty input: `none` when no type
matches or when the match consumes nothing (`input.length == original`, which
makes `tokenize` return `null`); otherwise the optionally emitted token (the
formatter's result is pushed only when truthy: `if ( next ) result.push( next )`)
and the remaining input `input.substr( match[0].length )`. -/
def tokenizeStep (T : Tokenizer) (input : String) : Option (Option JVal × String) :=
  match firstMatch T.tokenTypes input with
  | none => none
  | some (ty, m0) =>
    if m0.length = 0 then none
    else
    if m0.length = 0 then none
    else
      let v := ty.formatter m0
      some (if truthy v then some v else none, String.mk (input.data.drop m0.length))

/-- The matched substring of a successful `exec` is at most the input. -/
theorem rxExec_length_le {src s : String} {m0 : String}
    (h : rxExec src s = some m0) : m0.length ≤ s.length := by
  simp only [rxExec] at h
  cases hx : rxExecList src s.data with
  | none => rw [hx] at h; simp at h
  | some pe =>
    rw [hx] at h
    simp only [Option.map_some', Option.some.injEq] at h
    have hlen : m0.length = ((s.data.drop pe.1).take (pe.2 - pe.1)).length := by
      rw [← h]
      rfl
    have h1 : ((s.data.drop pe.1).take (pe.2 - pe.1)).length = min (pe.2 - pe.1) (s.data.drop pe.1).length :=
      List.length_take _ _
    have h2 : (s.data.drop pe.1).length = s.data.length - pe.1 := List.length_drop _ _
    have h3 : s.length = s.data.length := rfl
    omega

/-- A successful `firstMatch` comes from a successful `exec` of the matched
token type. -/
theorem firstMatch_exec :
    ∀ (tys : List TokenType) (input : String) (ty : TokenType) (m0 : String),
      firstMatch tys input = some (ty, m0) → rxExec ty.regexp input = some m0 := by
  intro tys
  induction tys with
  | nil => intro input ty m0 h; simp [firstMatch] at h
  | cons t ts ih =>
    intro input ty m0 h
    simp only [firstMatch] at h
    cases hx : rxExec t.regexp input with
    | some mm =>
      rw [hx] at h
      simp only [Option.some.injEq, Prod.mk.injEq] at h
      rw [← h.1, ← h.2]
      exact hx
    | none =>
      rw [hx] at h
      exact ih input ty m0 h

/-- A successful `tokenize` pass strictly shortens the input. -/
theorem tokenizeStep_shrinks {T : Tokenizer} {input : String}
    {emit : Option JVal} {rest : String}
    (h : tokenizeStep T input = some (emit, rest)) : rest.length < input.length := by
  simp only [tokenizeStep] at h
  cases hm : firstMatch T.tokenTypes input with
  | none => rw [hm] at h; simp at h
  | some tym =>
    obtain ⟨ty, m0⟩ := tym
    rw [hm] at h
    by_cases h0 : m0.length = 0
    · simp [h0] at h
    · simp only [h0, if_false] at h
      simp only [Option.some.injEq, Prod.mk.injEq] at h
      have hrest : rest = String.mk (input.data.drop m0.length) := h.2.symm
      have hle : m0.length ≤ input.length := rxExec_length_le (firstMatch_exec _ _ _ _ hm)
      have hrl : rest.length = input.data.length - m0.length := by
        rw [hrest]
        show (input.data.drop m0.length).length = input.data.length - m0.length
        simp [List.length_drop]
      have hil : input.length = input.data.length := rfl
      omega

/-- The body of the `while ( input.length > 0 )` loop of `tokenize`,
recursing on a fuel bound.  Since every successful pass strictly shortens the
input (`tokenizeStep_shrinks`), fuel `input.length` always suffices, and the
fuel-indexed loop agrees with the source's unbounded loop. -/
def tokenizeLoop (T : Tokenizer) : Nat → String → Option (List JVal)
  | 0, input => if input.length = 0 then some [] else none
  | fuel2 + 1, input =>
    if input.length = 0 then some []
    else
      match tokenizeStep T input with
      | none => none
      | some (emit, rest) =>
        match tokenizeLoop T fuel2 rest with
        | none => none
        | some l => some (emit.toList ++ l)

/-- The loop's value does not depend on the fuel, once the fuel covers the
input length. -/
theorem tokenizeLoop_congr (T : Tokenizer) :
    ∀ (fuel fuel2 : Nat) (input : String), input.length ≤ fuel → input.length ≤ fuel2 →
      tokenizeLoop T fuel input = tokenizeLoop T fuel2 input := by
  intro fuel
  induction fuel with
  | zero =>
    intro fuel2 input h1 _
    have h0 : input.length = 0 := by omega
    cases fuel2 <;> simp [tokenizeLoop, h0]
  | succ f ih =>
    intro fuel2 input h1 h2
    by_cases h0 : input.length = 0
    · cases fuel2 <;> simp [tokenizeLoop, h0]
    · have hf2 : ∃ f2, fuel2 = f2 + 1 := ⟨fuel2 - 1, by omega⟩
      obtain ⟨f2, rfl⟩ := hf2
      simp only [tokenizeLoop, h0, if_false]
      cases hstep : tokenizeStep T input with
      | none => rfl
      | some er =>
        obtain ⟨emit, rest⟩ := er
        have hlt : rest.length < input.length := tokenizeStep_shrinks hstep
        dsimp only
        rw [ih f2 rest (by omega) (by omega)]

/-- The `tokenize` method: repeatedly pop the first matching token type off
the input, formatting each match; fail with `null` (here `none`) when no type
matches or the match consumes nothing. -/
def Tokenizer.tokenize (T : Tokenizer) (input : String) : Option (List JVal) :=
  tokenizeLoop T input.length input

/-! ### The Grammar class: data model -/

/-- An entry of a rule's right-hand side: a category-name string (nonterminal)
or a `RegExp` object, identified by its source string (terminal). -/
inductive RElem where
  | nt (name : String)
  | re (src : String)
  deriving Repr, DecidableEq

/-- An Earley state, as documented at the top of the source file. -/
structure EState where
  lhs : String
  rhs : List RElem
  pos : Nat
  ori : Nat
  got : List JVal

/-- The `getNext` helper: the rhs entry at the dot, or `null` at the end. -/
def getNext (s : EState) : Option RElem :=
  s.rhs.get? s.pos

/-- The `equalArrays` helper, including its JavaScript loose-equality corner:
when `entry1` is a string and `entry2` a `RegExp`, `entry1 != entry2` coerces
the regex to the string `"/" + source + "/"`. -/
def relemEq : RElem → RElem → Bool
  | .re s1, .re s2 => s1 == s2
  | .re _, .nt _ => false
  | .nt s1, .re s2 => s1 == "/" ++ s2 ++ "/"
  | .nt s1, .nt s2 => s1 == s2

/-- Elementwise `equalArrays` over two rhs sequences. -/
def equalArrays (a b : List RElem) : Bool :=
  a.length == b.length && (List.zip a b).all (fun p => relemEq p.1 p.2)

/-- The loose comparison `getNext( s ) == state.lhs` used by the completer:
`null` never equals a string, a category name compares by value, and a
`RegExp` compares through its string coercion. -/
def nextMatchesLhs (next : Option RElem) (lhs : String) : Bool :=
  match next with
  | none => false
  | some (.nt n) => n == lhs
  | some (.re s) => lhs == "/" ++ s ++ "/"

/-- The rule table `this.rules`: an insertion-ordered object mapping category
names to lists of rhs sequences. -/
def Rules := List (String × List (List RElem))

/-- Object key lookup (`this.rules[next]`, guarded by `hasOwnProperty`). -/
def rulesLookup (rules : Rules) (cat : String) : Option (List (List RElem)) :=
  match rules with
  | [] => none
  | (c, rs) :: rest => if c = cat then some rs else rulesLookup rest cat

/-- Create the key if absent, then push one rhs sequence onto its list. -/
def rulesInsert (rules : Rules) (cat : String) (seq : List RElem) : Rules :=
  match rules with
  | [] => [(cat, [seq])]
  | (c, rs) :: rest =>
    if c = cat then (c, rs ++ [seq]) :: rest
    else (c, rs) :: rulesInsert rest cat seq

/-- The parse options object (`this.defaults`, possibly overridden). -/
structure Options where
  addCategories : Bool
  collapseBranches : Bool
  showDebuggingOutput : Bool
  expressionBuilder : Option (JVal → JVal)
  tokenizer : Option Tokenizer
  comparator : JVal → JVal → Bool
  maxIterations : Int

/-- The defaults installed by the `Grammar` constructor. -/
def defaultOptions : Options :=
  { addCategories := true
    collapseBranches := false
    showDebuggingOutput := false
    expressionBuilder := none
    tokenizer := none
    comparator := sameJSON
    maxIterations := -1 }

/-- The `Grammar` class: start symbol, rule table, and default options. -/
structure Grammar where
  START : String
  rules : Rules
  defaults : Options

/-- The `Grammar` constructor. -/
def mkGrammar (START : String) : Grammar :=
  { START := START, rules := [], defaults := defaultOptions }

/-- One `sequence` argument of `addRule`: a `RegExp`, a string to split at
spaces, or an array of entries. -/
inductive RhsSpec where
  | rx (src : String)
  | str (s : String)
  | arr (entries : List RElem)

/-- The in-place anchoring `addRule` applies to each entry of a sequence:
regexes are rewrapped as `new RegExp( "^" + source + "$" )`, strings are
untouched. -/
def anchorElem : RElem → RElem
  | .nt s => .nt s
  | .re src => .re ("^" ++ src ++ "$")

/-- Convert one `addRule` argument to an array, before anchoring: a lone
regex becomes a one-entry array, a string is split at spaces into category
names. -/
def specToSequence : RhsSpec → List RElem
  | .rx src => [.re src]
  | .str s => (s.splitOn " ").map .nt
  | .arr entries => entries

/-- The `addRule` method over a list of sequence arguments. -/
def Grammar.addRule (g : Grammar) (categoryName : String) (sequences : List RhsSpec) : Grammar :=
  { g with rules := sequences.foldl (fun rs spec =>
      rulesInsert rs categoryName ((specToSequence spec).map anchorElem)) g.rules }

/-! ### The Earley machine of `Grammar.parse`

The nested loops of `parse` are embedded as a deterministic small-step
machine over the mutable locals: the state grid, the outer index `i`, the
inner index `j`, and the iteration counter.  One machine step processes one
entry `stateSet[j]` (or advances to the next state set). -/

/-- Errors `parse` can throw. -/
inductive PErr where
  | unknownNonterminal (name : String)
  | iterationLimit
  | typeError
  deriving Repr, DecidableEq

/-- The mutable locals of `parse`. -/
structure Machine where
  grid : List (List EState)
  i : Nat
  j : Nat
  cnt : Nat

/-- Read `stateGrid[k]` (total, with the out-of-range default unused by the
algorithm). -/
def getBucket (grid : List (List EState)) (k : Nat) : List EState :=
  (grid.get? k).getD []

/-- Write `stateGrid[k]`. -/
def setBucket (grid : List (List EState)) (k : Nat) (b : List EState) : List (List EState) :=
  grid.set k b

/-- Build the child subtree the completer pushes: copy `state.got`, unshift
the category name if `addCategories`, unshift the builder flag if an
`expressionBuilder` is configured, and collapse a one-entry list if
`collapseBranches`. -/
def childTree (opts : Options) (st : EState) : JVal :=
  let g1 := if opts.addCategories then JVal.vstr st.lhs :: st.got else st.got
  let g2 := if opts.expressionBuilder.isSome then JVal.vflag :: g1 else g1
  match opts.collapseBranches, g2 with
  | true, [x] => x
  | _, g => .varr g

/-- The completer's appends: for every state of `stateGrid[state.ori]` whose
next symbol loosely equals the completed lhs, a copy advanced one step with
the new child pushed onto its `got`.  The `forEach` walks the bucket as it
was when the completer started. -/
def completions (opts : Options) (origin : List EState) (st : EState) : List EState :=
  origin.filterMap (fun s =>
    if nextMatchesLhs (getNext s) st.lhs then
      some { s with pos := s.pos + 1, got := s.got ++ [childTree opts st] }
    else none)

/-- The predictor's duplicate test: some state of the (growing) bucket
already has this lhs, an `equalArrays`-equal rhs, and its dot at zero. -/
def predFound (bucket : List EState) (x : String) (rhs : List RElem) : Bool :=
  bucket.any (fun s => s.lhs == x && equalArrays s.rhs rhs && s.pos == 0)

/-- The fresh state the predictor appends for one production. -/
def freshState (x : String) (rhs : List RElem) (i : Nat) : EState :=
  { lhs := x, rhs := rhs, pos := 0, ori := i, got := [] }

/-- The predictor's `rhss.forEach` loop: append a fresh dot-zero state for
each production not already present, checking presence against the bucket as
it grows. -/
def predictInto (bucket : List EState) (x : String) (i : Nat) (rhss : List (List RElem)) :
    List EState :=
  rhss.foldl (fun b rhs =>
    if predFound b x rhs then b
    else b ++ [freshState x rhs i]) bucket

/-- The result of one machine step. -/
inductive StepOut where
  | done (grid : List (List EState))
  | cont (m : Machine)
  | err (e : PErr)

/-- The iteration-limit test `numIterationsDone++ > options.maxIterations &&
options.maxIterations > 0`, applied to the counter value before the
increment. -/
def iterCheck (maxI : Int) (oldCnt : Nat) : Bool :=
  (oldCnt : Int) > maxI && maxI > 0

/-- One step of the Earley machine: process `stateGrid[i][j]` by the
completer, the scanner or the predictor, skip states with a next symbol once
`i` reaches the input length, and advance `i` when the bucket is exhausted. -/
def step (g : Grammar) (opts : Options) (input : List JVal) (m : Machine) : StepOut :=
  if m.i ≥ m.grid.length then .done m.grid
  else
    let bucket := getBucket m.grid m.i
    if m.j < bucket.length then
      let st := (bucket.get? m.j).getD ⟨"", [], 0, 0, []⟩
      match getNext st with
      | none =>
        let apps := completions opts (getBucket m.grid st.ori) st
        let k := apps.length
        if opts.maxIterations > 0 && k > 0 && ((m.cnt + (k - 1) : Nat) : Int) > opts.maxIterations then
          .err .iterationLimit
        else
          .cont { grid := setBucket m.grid m.i (bucket ++ apps), i := m.i, j := m.j + 1,
                  cnt := m.cnt + k }
      | some next =>
        if m.i ≥ input.length then
          .cont { m with j := m.j + 1 }
        else
          match next with
          | .re src =>
            let tok := input.getD m.i JVal.vundef
            let grid' :=
              if rxTest src (toJSString tok) then
                setBucket m.grid (m.i + 1) (getBucket m.grid (m.i + 1) ++
                  [{ st with pos := st.pos + 1, got := st.got ++ [tok] }])
              else m.grid
            .cont { grid := grid', i := m.i, j := m.j + 1, cnt := m.cnt }
          | .nt x =>
            match rulesLookup g.rules x with
            | none => .err (.unknownNonterminal x)
            | some rhss =>
              let bucket' := predictInto bucket x m.i rhss
              if iterCheck opts.maxIterations m.cnt then .err .iterationLimit
              else
                .cont { grid := setBucket m.grid m.i bucket', i := m.i, j := m.j + 1,
                        cnt := m.cnt + 1 }
    else .cont { grid := m.grid, i := m.i + 1, j := 0, cnt := m.cnt }

/-- The outcome of running the machine with the given amount of fuel. -/
inductive RunRes where
  | finished (grid : List (List EState))
  | failed (e : PErr)
  | nofuel

/-- Run the machine to completion, stepping at most `fuel` times. -/
def run (g : Grammar) (opts : Options) (input : List JVal) : Nat → Machine → RunRes
  | 0, _ => .nofuel
  | fuel + 1, m =>
    match step g opts input m with
    | .done grid => .finished grid
    | .err e => .failed e
    | .cont m2 => run g opts input fuel m2

/-- The machine's initial configuration: `input.length + 1` empty buckets,
the first seeded with the synthetic start state. -/
def initMachine (g : Grammar) (input : List JVal) : Machine :=
  { grid := [{ lhs := "", rhs := [.nt g.START], pos := 0, ori := 0, got := [] }] ::
      List.replicate input.length [],
    i := 0, j := 0, cnt := 0 }

/-! ### Forest reconstruction -/

/-- Does `args.indexOf( undefined ) > -1` hold for the (possibly collapsed)
argument value?  On an array this searches the elements; on any non-array the
JavaScript call would search a string or throw, and never finds `undefined`. -/
def jsHasUndef : JVal → Bool
  | .varr l => l.any (fun x => jvalBEq x .vundef)
  | _ => false

mutual

/-- The `recur` function applied by `parse` when an `expressionBuilder` is
configured: leave non-arrays and untagged arrays alone; otherwise rebuild the
children bottom-up, collapse one-entry argument lists when
`collapseBranches`, reject (return `undefined`) when any child rebuilt to
`undefined`, and otherwise call the builder. -/
def recurB (opts : Options) (builder : JVal → JVal) : JVal → JVal
  | .varr (JVal.vflag :: rest) =>
    let args := recurBList opts builder rest
    let argsV : JVal :=
      if opts.collapseBranches && args.length = 1 then args.headD .vundef else .varr args
    if jsHasUndef argsV then .vundef else builder argsV
  | v => v

/-- `recur` mapped over the children of a tagged node. -/
def recurBList (opts : Options) (builder : JVal → JVal) : List JVal → List JVal
  | [] => []
  | x :: xs => recurB opts builder x :: recurBList opts builder xs

end

/-- The candidate a final-bucket state contributes: complete synthetic states
(`lhs == '' && getNext( stateSet ) == null`) yield `got[0]`, passed through
the builder when configured, and dropped when the rebuilt result is falsy. -/
def candidateOf (opts : Options) (st : EState) : Option JVal :=
  if st.lhs == "" && (getNext st).isNone then
    let result := st.got.headD .vundef
    match opts.expressionBuilder with
    | some b =>
      let r := recurB opts b result
      if truthy r then some r else none
    | none => some result
  else none

/-- All candidate roots of the final bucket, in bucket order. -/
def candidates (opts : Options) (finalBucket : List EState) : List JVal :=
  finalBucket.filterMap (candidateOf opts)

/-- Push a result unless some already-kept result compares equal to it under
the configured comparator. -/
def dedupPush (cmp : JVal → JVal → Bool) (results : List JVal) (r : JVal) : List JVal :=
  if results.any (fun old => cmp old r) then results else results ++ [r]

/-- The final duplicate-removal loop over the candidates. -/
def dedupComp (cmp : JVal → JVal → Bool) (l : List JVal) : List JVal :=
  l.foldl (dedupPush cmp) []

/-- The observable outcome of a parse. -/
inductive POut where
  | ok (results : List JVal)
  | err (e : PErr)
  | nofuel

/-- Parse an already-tokenized input: run the machine from the seeded grid
and reconstruct the deduplicated results from the last bucket. -/
def parseTokens (g : Grammar) (opts : Options) (input : List JVal) (fuel : Nat) : POut :=
  match run g opts input fuel (initMachine g input) with
  | .finished grid =>
    .ok (dedupComp opts.comparator (candidates opts (getBucket grid (grid.length - 1))))
  | .failed e => .err e
  | .nofuel => .nofuel

/-- The argument of `parse`: a raw string or an array of tokens. -/
inductive PInput where
  | str (s : String)
  | toks (ts : List JVal)

/-- The body of `parse` after options assignment: a string input is run
through the tokenizer when one is configured — a failed tokenization leaves
`input = null`, so the subsequent `input.length` read throws a `TypeError` —
and a string input without a tokenizer is consumed character by character. -/
def parseImpl (g : Grammar) (opts : Options) (inp : PInput) (fuel : Nat) : POut :=
  match inp with
  | .str s =>
    match opts.tokenizer with
    | some T =>
      match T.tokenize s with
      | none => .err .typeError
      | some ts => parseTokens g opts ts fuel
    | none => parseTokens g opts (s.data.map (fun c => JVal.vstr (String.mk [c]))) fuel
  | .toks ts => parseTokens g opts ts fuel

/-- The options argument of `parse`: a subset of the option properties. -/
structure PassedOptions where
  addCategories : Option Bool := none
  collapseBranches : Option Bool := none
  showDebuggingOutput : Option Bool := none
  expressionBuilder : Option (Option (JVal → JVal)) := none
  tokenizer : Option (Option Tokenizer) := none
  comparator : Option (JVal → JVal → Bool) := none
  maxIterations : Option Int := none

/-- `Object.assign( target, source )`: copy the passed properties into the
target object and return it. -/
def objectAssign (d : Options) (p : PassedOptions) : Options :=
  { addCategories := p.addCategories.getD d.addCategories
    collapseBranches := p.collapseBranches.getD d.collapseBranches
    showDebuggingOutput := p.showDebuggingOutput.getD d.showDebuggingOutput
    expressionBuilder := p.expressionBuilder.getD d.expressionBuilder
    tokenizer := p.tokenizer.getD d.tokenizer
    comparator := p.comparator.getD d.comparator
    maxIterations := p.maxIterations.getD d.maxIterations }

/-- The `parse` method.  Its first line, `options = Object.assign(
this.defaults, options )`, mutates the grammar's stored defaults; the
returned pair carries the parse outcome and the grammar as it is after the
call. -/
def Grammar.parse (g : Grammar) (inp : PInput) (p : PassedOptions) (fuel : Nat) :
    POut × Grammar :=
  let options := objectAssign g.defaults p
  (parseImpl g options inp fuel, { g with defaults := options })



/-! ### The in-place mutation performed by `addRule` on array arguments

The main model above treats rule storage by value.  To settle the aliasing
behaviour of `addRule` — the caller's array object is mutated in place and
stored without copying — arrays are given identities in an explicit store,
and the rule table stores references. -/

/-- A store of array objects, addressed by index. -/
structure ArrayStore where
  arrs : List (List RElem)

/-- A grammar whose rule table stores references to array objects. -/
structure GrammarRef where
  START : String
  rules : List (String × List Nat)

/-- Reference-level analogue of `rulesInsert`. -/
def rulesInsertRef (rules : List (String × List Nat)) (cat : String) (seqRef : Nat) :
    List (String × List Nat) :=
  match rules with
  | [] => [(cat, [seqRef])]
  | (c, rs) :: rest =>
    if c = cat then (c, rs ++ [seqRef]) :: rest
    else (c, rs) :: rulesInsertRef rest cat seqRef

/-- Reference-level analogue of `rulesLookup`. -/
def rulesLookupRef (rules : List (String × List Nat)) (cat : String) : Option (List Nat) :=
  match rules with
  | [] => none
  | (c, rs) :: rest => if c = cat then some rs else rulesLookupRef rest cat

/-- `addRule( categoryName, sequence )` for an array argument: overwrite the
array's regex entries in place (`sequence[index] = new RegExp( ... )`) and
push the same array object onto the category's rule list. -/
def addRuleArray (store : ArrayStore) (g : GrammarRef) (categoryName : String) (seqRef : Nat) :
    ArrayStore × GrammarRef :=
  let seq := (store.arrs.get? seqRef).getD []
  ({ arrs := store.arrs.set seqRef (seq.map anchorElem) },
   { g with rules := rulesInsertRef g.rules categoryName seqRef })

/-! ### Supporting lemmas -/

/-- Unfolding equation for `tokenize`: it is the loop of `tokenizeStep`. -/
theorem tokenize_unfold (T : Tokenizer) (input : String) :
    T.tokenize input =
      if input.length = 0 then some []
      else
        match tokenizeStep T input with
        | none => none
        | some (emit, rest) =>
          match T.tokenize rest with
          | none => none
          | some l => some (emit.toList ++ l) := by
  show tokenizeLoop T input.length input = _
  by_cases h0 : input.length = 0
  · rw [h0]
    simp [tokenizeLoop, h0]
  · have hn : ∃ n, input.length = n + 1 := ⟨input.length - 1, by omega⟩
    obtain ⟨n, hn⟩ := hn
    rw [hn]
    simp only [tokenizeLoop, h0, if_false, hn]
    cases hstep : tokenizeStep T input with
    | none => simp
    | some er =>
      obtain ⟨emit, rest⟩ := er
      have hlt : rest.length < input.length := tokenizeStep_shrinks hstep
      simp only [Nat.succ_ne_zero, if_false]
      rw [tokenizeLoop_congr T n rest.length rest (by omega) (by omega)]
      rfl

/-! ### Claim theorems -/

/-- Concrete tokenizer for witnesses: a single type matching the letter `a`. -/
def wTokA : Tokenizer := { tokenTypes := [{ regexp := "^a", formatter := fun s => .vstr s }] }

/-- Concrete grammar `S → a|b` (stored as `^a|b$`). -/
def wGramAB : Grammar := (mkGrammar "S").addRule "S" [.rx "a|b"]

/-- C1, counterexample.  With a tokenizer configured and the input `"b"`, on
which tokenization fails, `parse` does not return the empty result sequence:
the failed tokenization leaves `input = null` and the `input.length` read
throws a `TypeError`. -/
theorem parse_tokenizer_failure_concrete :
    parseImpl wGramAB { defaultOptions with tokenizer := some wTokA } (.str "b") 100 =
      .err .typeError
    ∧ parseImpl wGramAB { defaultOptions with tokenizer := some wTokA } (.str "b") 100 ≠
      .ok [] := by
  constructor
  · rfl
  · intro h
    rw [(rfl : parseImpl wGramAB { defaultOptions with tokenizer := some wTokA } (.str "b") 100 = .err .typeError)] at h
    exact POut.noConfusion h

/-- C1, amended.  For every grammar, options carrying a tokenizer, and string
input on which the tokenizer fails, `parse` raises a `TypeError` (reading
`length` of `null`) instead of returning a result sequence. -/
theorem parse_tokenizer_failure_raises (g : Grammar) (opts : Options) (T : Tokenizer)
    (s : String) (fuel : Nat) (hT : opts.tokenizer = some T)
    (hfail : T.tokenize s = none) :
    parseImpl g opts (.str s) fuel = .err .typeError := by
  simp [parseImpl, hT, hfail]

/-- C1, witness for the amended theorem at a concrete failing tokenization. -/
theorem parse_tokenizer_failure_raises_witness :
    parseImpl wGramAB { defaultOptions with tokenizer := some wTokA } (.str "b") 100 =
      .err .typeError :=
  parse_tokenizer_failure_raises wGramAB
    { defaultOptions with tokenizer := some wTokA } wTokA "b" 100 rfl rfl

/-- Concrete grammar `S → /a/` used by the defaults-mutation theorem. -/
def wGramA : Grammar := (mkGrammar "S").addRule "S" [.rx "a"]

/-- C2.  `parse` is not a pure function of the grammar snapshot, input and
options: its first line `options = Object.assign( this.defaults, options )`
overwrites the grammar's stored defaults with the passed options, so a later
`parse` call on the same grammar without options observes the earlier call's
options.  Concretely: after parsing once with `addCategories: false,
collapseBranches: true`, the stored default `addCategories` has become
`false`, and a subsequent optionless parse returns the collapsed,
uncategorized tree instead of the categorized one the pristine grammar
produces. -/
theorem parse_mutates_stored_defaults :
    wGramA.defaults.addCategories = true
    ∧ ((wGramA.parse (.toks [.vstr "a"])
          { addCategories := some false, collapseBranches := some true } 100).2.defaults.addCategories
        = false)
    ∧ ((Grammar.parse
          ((wGramA.parse (.toks [.vstr "a"])
            { addCategories := some false, collapseBranches := some true } 100).2)
          (.toks [.vstr "a"]) {} 100).1
        = .ok [.vstr "a"])
    ∧ ((wGramA.parse (.toks [.vstr "a"]) {} 100).1 = .ok [.varr [.vstr "S", .vstr "a"]]) :=
  ⟨rfl, rfl, rfl, rfl⟩

/-- Concrete tokenizer whose single type matches `a` and formats it to the
empty string (a falsy value). -/
def wTokEmptyFmt : Tokenizer :=
  { tokenTypes := [{ regexp := "^a", formatter := fun _ => .vstr "" }] }

/-- C4, counterexample.  A formatter returning the empty string — not the
drop signal `null` — still has its token omitted, because `tokenize` tests
the formatted value for truthiness (`if ( next ) result.push( next )`). -/
theorem tokenize_drops_empty_string_token :
    wTokEmptyFmt.tokenize "a" = some []
    ∧ wTokEmptyFmt.tokenize "a" ≠ some [.vstr ""] := by
  constructor
  · rfl
  · intro h
    exact List.noConfusion
      (Option.some.inj ((rfl : some ([] : List JVal) = wTokEmptyFmt.tokenize "a").trans h))

/-- C4, amended.  A matched token is omitted from the output exactly when the
formatter returns a JavaScript-falsy value (`null`, `undefined`, `false`,
`0`, or the empty string); any truthy return value is appended.  Stated on
one pass of the tokenizer loop: when the first matching type consumes a
nonempty match, the output is the rest's output prefixed by the formatted
value exactly when that value is truthy. -/
theorem tokenize_emits_iff_truthy (T : Tokenizer) (input : String) (ty : TokenType)
    (m0 : String) (hm : firstMatch T.tokenTypes input = some (ty, m0))
    (h0 : m0.length ≠ 0) :
    T.tokenize input =
      (T.tokenize (String.mk (input.data.drop m0.length))).map
        (fun rest => (if truthy (ty.formatter m0) then [ty.formatter m0] else []) ++ rest) := by
  have hle : m0.length ≤ input.length := rxExec_length_le (firstMatch_exec _ _ _ _ hm)
  have hpos : input.length ≠ 0 := by omega
  have hstep : tokenizeStep T input =
      some (if truthy (ty.formatter m0) then some (ty.formatter m0) else none,
        String.mk (input.data.drop m0.length)) := by
    simp [tokenizeStep, hm, h0]
  rw [tokenize_unfold, if_neg hpos, hstep]
  dsimp only
  cases hrec : T.tokenize (String.mk (input.data.drop m0.length)) with
  | none => rfl
  | some l =>
    by_cases ht : truthy (ty.formatter m0)
    · simp [ht]
    · simp [ht]

/-- C4, witness: with the empty-string formatter the token is dropped, and
with the identity formatter on a truthy match it is kept. -/
theorem tokenize_emits_iff_truthy_witness :
    wTokEmptyFmt.tokenize "a" =
      (wTokEmptyFmt.tokenize (String.mk ("a".data.drop 1))).map
        (fun rest => (if truthy ((fun _ => JVal.vstr "") "a") then [(fun _ => JVal.vstr "") "a"] else []) ++ rest)
    ∧ wTokA.tokenize "a" =
      (wTokA.tokenize (String.mk ("a".data.drop 1))).map
        (fun rest => (if truthy ((fun s => JVal.vstr s) "a") then [(fun s => JVal.vstr s) "a"] else []) ++ rest) :=
  ⟨tokenize_emits_iff_truthy wTokEmptyFmt "a"
      { regexp := "^a", formatter := fun _ => .vstr "" } "a" rfl (by decide),
   tokenize_emits_iff_truthy wTokA "a"
      { regexp := "^a", formatter := fun s => .vstr s } "a" rfl (by decide)⟩

/-- Concrete tokenizer whose first type matches the empty string on inputs
that do not start with `a` (pattern `^a|`). -/
def wTokEmptyMatch : Tokenizer :=
  { tokenTypes := [{ regexp := "^a|", formatter := fun s => .vstr s }] }

/-- C9.  Every pass of the `tokenize` loop either strictly shortens the
remaining input or makes `tokenize` return the failure value: a successful
`tokenizeStep` consumes at least one character, and when the first matching
token type matches only the empty string at the current position — consuming
nothing — `tokenize` returns `null` rather than looping. -/
theorem tokenize_pass_shrinks_or_fails (T : Tokenizer) (input : String) :
    (∀ emit rest, tokenizeStep T input = some (emit, rest) → rest.length < input.length)
    ∧ (∀ ty, input.length ≠ 0 → firstMatch T.tokenTypes input = some (ty, "") →
        T.tokenize input = none) := by
  constructor
  · intro emit rest h
    exact tokenizeStep_shrinks h
  · intro ty hne hm
    have hstep : tokenizeStep T input = none := by
      simp [tokenizeStep, hm]
    rw [tokenize_unfold, if_neg hne, hstep]

/-- C9, witness: a pass over `"ab"` consumes the `a`; the empty-match
tokenizer fails on `"bbb"`. -/
theorem tokenize_pass_shrinks_or_fails_witness :
    (String.mk ("ab".data.drop 1)).length < ("ab").length
    ∧ wTokEmptyMatch.tokenize "bbb" = none :=
  ⟨(tokenize_pass_shrinks_or_fails wTokA "ab").1 (some (.vstr "a"))
      (String.mk ("ab".data.drop 1)) rfl,
   (tokenize_pass_shrinks_or_fails wTokEmptyMatch "bbb").2
      { regexp := "^a|", formatter := fun s => .vstr s } (by decide) rfl⟩

/-- C10.  `addRule`, given an array as a rhs sequence, overwrites the
caller's array in place — each regex entry becomes the anchored
`new RegExp( "^" + source + "$" )`, strings are left unchanged — and stores
that same array object (the same reference, no copy) in the rule table. -/
theorem addRule_mutates_caller_array (store : ArrayStore) (g : GrammarRef) (cat : String)
    (seqRef : Nat) (seq : List RElem) (h : store.arrs.get? seqRef = some seq) :
    ((addRuleArray store g cat seqRef).1.arrs.get? seqRef = some (seq.map anchorElem))
    ∧ (∃ refs, rulesLookupRef (addRuleArray store g cat seqRef).2.rules cat = some refs
        ∧ seqRef ∈ refs)
    ∧ (∀ name, anchorElem (.nt name) = .nt name)
    ∧ (∀ src, anchorElem (.re src) = .re ("^" ++ src ++ "$")) := by
  refine ⟨?_, ?_, fun _ => rfl, fun _ => rfl⟩
  · have hlt : seqRef < store.arrs.length := by
      by_contra hge
      rw [List.get?_eq_none.mpr (by omega)] at h
      exact Option.noConfusion h
    have hset : ∀ (l : List (List RElem)) (n : Nat) (a : List RElem), n < l.length →
        (l.set n a).get? n = some a := by
      intro l
      induction l with
      | nil => intro n a hn; simp at hn
      | cons x xs ih =>
        intro n a hn
        cases n with
        | zero => rfl
        | succ n2 => exact ih n2 a (by simp at hn; omega)
    simp only [addRuleArray, h, Option.getD_some]
    exact hset store.arrs seqRef (seq.map anchorElem) hlt
  · show ∃ refs, rulesLookupRef (rulesInsertRef g.rules cat seqRef) cat = some refs ∧ seqRef ∈ refs
    induction g.rules with
    | nil => exact ⟨[seqRef], by simp [rulesInsertRef, rulesLookupRef], by simp⟩
    | cons p rest ih =>
      obtain ⟨c, rs⟩ := p
      by_cases hc : c = cat
      · exact ⟨rs ++ [seqRef], by simp [rulesInsertRef, rulesLookupRef, hc], by simp⟩
      · obtain ⟨refs, h1, h2⟩ := ih
        exact ⟨refs, by simp [rulesInsertRef, rulesLookupRef, hc, h1], h2⟩

/-- C10, witness: a one-array store holding `[ 'X', /a/ ]`. -/
theorem addRule_mutates_caller_array_witness :
    ((addRuleArray { arrs := [[.nt "X", .re "a"]] } { START := "S", rules := [] } "S" 0).1.arrs.get? 0
      = some ([RElem.nt "X", RElem.re "a"].map anchorElem))
    ∧ (∃ refs, rulesLookupRef
          (addRuleArray { arrs := [[.nt "X", .re "a"]] } { START := "S", rules := [] } "S" 0).2.rules "S"
        = some refs ∧ 0 ∈ refs)
    ∧ (∀ name, anchorElem (.nt name) = .nt name)
    ∧ (∀ src, anchorElem (.re src) = .re ("^" ++ src ++ "$")) :=
  addRule_mutates_caller_array { arrs := [[.nt "X", .re "a"]] } { START := "S", rules := [] }
    "S" 0 [.nt "X", .re "a"] rfl


/-- The dedup fold only ever appends to its accumulator, and the appended
part is a sublist of the candidates. -/
theorem dedupFold_decomp (cmp : JVal → JVal → Bool) :
    ∀ (l acc : List JVal), ∃ t, List.foldl (dedupPush cmp) acc l = acc ++ t ∧ t.Sublist l := by
  intro l
  induction l with
  | nil => intro acc; exact ⟨[], by simp, List.nil_sublist []⟩
  | cons x xs ih =>
    intro acc
    show ∃ t, List.foldl (dedupPush cmp) (dedupPush cmp acc x) xs = acc ++ t ∧ t.Sublist (x :: xs)
    by_cases hx : acc.any (fun old => cmp old x)
    · obtain ⟨t, h1, h2⟩ := ih acc
      refine ⟨t, ?_, h2.trans (List.sublist_cons_self x xs)⟩
      rw [show dedupPush cmp acc x = acc from by simp [dedupPush, hx]]
      exact h1
    · obtain ⟨t, h1, h2⟩ := ih (acc ++ [x])
      refine ⟨x :: t, ?_, h2.cons₂ x⟩
      rw [show dedupPush cmp acc x = acc ++ [x] from by simp [dedupPush, hx]]
      rw [h1, List.append_assoc]
      rfl

/-- The dedup fold preserves pairwise non-equivalence of the kept results. -/
theorem dedupFold_pairwise (cmp : JVal → JVal → Bool) :
    ∀ (l acc : List JVal), List.Pairwise (fun a b => cmp a b = false) acc →
      List.Pairwise (fun a b => cmp a b = false) (List.foldl (dedupPush cmp) acc l) := by
  intro l
  induction l with
  | nil => intro acc h; exact h
  | cons x xs ih =>
    intro acc h
    apply ih
    by_cases hx : acc.any (fun old => cmp old x)
    · rw [show dedupPush cmp acc x = acc from by simp [dedupPush, hx]]
      exact h
    · rw [show dedupPush cmp acc x = acc ++ [x] from by simp [dedupPush, hx]]
      rw [List.pairwise_append]
      refine ⟨h, List.pairwise_singleton _ _, ?_⟩
      intro a ha b hb
      have hb2 : b = x := by simpa using hb
      subst hb2
      simp only [List.any_eq_true, not_exists, not_and, Bool.not_eq_true] at hx
      exact hx a ha

/-- C7.  The result sequence of a successful parse is the comparator-dedup of
the candidate roots of the final bucket: no kept result compares equal (in
the order the comparator is applied: earlier result as first argument) to a
later one, and the kept results are a sublist of the candidate sequence —
i.e. the survivors appear in first-occurrence order. -/
theorem parse_results_no_duplicates (g : Grammar) (opts : Options) (input : List JVal)
    (fuel : Nat) (res : List JVal) (h : parseTokens g opts input fuel = .ok res) :
    ∃ grid, run g opts input fuel (initMachine g input) = .finished grid
      ∧ res = dedupComp opts.comparator (candidates opts (getBucket grid (grid.length - 1)))
      ∧ List.Pairwise (fun a b => opts.comparator a b = false) res
      ∧ res.Sublist (candidates opts (getBucket grid (grid.length - 1))) := by
  unfold parseTokens at h
  cases hrun : run g opts input fuel (initMachine g input) with
  | finished grid =>
    rw [hrun] at h
    have hres : res = dedupComp opts.comparator (candidates opts (getBucket grid (grid.length - 1))) :=
      (POut.ok.inj h).symm
    refine ⟨grid, rfl, hres, ?_, ?_⟩
    · rw [hres]
      exact dedupFold_pairwise opts.comparator _ [] (List.Pairwise.nil)
    · rw [hres]
      obtain ⟨t, h1, h2⟩ := dedupFold_decomp opts.comparator (candidates opts (getBucket grid (grid.length - 1))) []
      unfold dedupComp
      rw [h1]
      exact h2
  | failed e => rw [hrun] at h; exact POut.noConfusion h
  | nofuel => rw [hrun] at h; exact POut.noConfusion h

/-- C7, witness at the one-rule grammar on the token `a`. -/
theorem parse_results_no_duplicates_witness :
    ∃ grid, run wGramA defaultOptions [JVal.vstr "a"] 50 (initMachine wGramA [JVal.vstr "a"]) =
        .finished grid
      ∧ [JVal.varr [JVal.vstr "S", JVal.vstr "a"]] =
          dedupComp defaultOptions.comparator
            (candidates defaultOptions (getBucket grid (grid.length - 1)))
      ∧ List.Pairwise (fun a b => defaultOptions.comparator a b = false)
          [JVal.varr [JVal.vstr "S", JVal.vstr "a"]]
      ∧ List.Sublist [JVal.varr [JVal.vstr "S", JVal.vstr "a"]]
          (candidates defaultOptions (getBucket grid (grid.length - 1))) :=
  parse_results_no_duplicates wGramA defaultOptions [.vstr "a"] 50
    [.varr [.vstr "S", .vstr "a"]] rfl


/-! ### Machine step lemmas -/

/-- The machine is about to process the entry `st = stateSet[j]`. -/
def atEntry (m : Machine) (st : EState) : Prop :=
  m.i < m.grid.length ∧ (getBucket m.grid m.i).get? m.j = some st

/-- Reading back the bucket just written. -/
theorem getBucket_setBucket_self (grid : List (List EState)) (k : Nat) (b : List EState)
    (h : k < grid.length) : getBucket (setBucket grid k b) k = b := by
  induction grid generalizing k with
  | nil => simp at h
  | cons x xs ih =>
    cases k with
    | zero => rfl
    | succ k2 => exact ih k2 (by simp at h; omega)

/-- Reading an untouched bucket. -/
theorem getBucket_setBucket_ne (grid : List (List EState)) (k k2 : Nat) (b : List EState)
    (h : k ≠ k2) : getBucket (setBucket grid k b) k2 = getBucket grid k2 := by
  induction grid generalizing k k2 with
  | nil => rfl
  | cons x xs ih =>
    cases k with
    | zero => cases k2 with
      | zero => exact absurd rfl h
      | succ => rfl
    | succ j => cases k2 with
      | zero => rfl
      | succ j2 => exact ih j j2 (by omega)

/-- A found prediction stays found as the bucket grows. -/
theorem predFound_append (b l : List EState) (x : String) (r : List RElem)
    (h : predFound b x r = true) : predFound (b ++ l) x r = true := by
  simp only [predFound, List.any_append, Bool.or_eq_true]
  exact Or.inl h

/-- `relemEq` is reflexive. -/
theorem relemEq_refl (e : RElem) : relemEq e e = true := by
  cases e <;> simp [relemEq]

/-- `equalArrays` is reflexive. -/
theorem equalArrays_refl (a : List RElem) : equalArrays a a = true := by
  simp only [equalArrays, Bool.and_eq_true, beq_iff_eq, List.all_eq_true]
  refine ⟨by simp, ?_⟩
  intro p hp
  have : p.1 = p.2 := by
    induction a with
    | nil => simp at hp
    | cons y ys ih =>
      simp only [List.zip_cons_cons, List.mem_cons] at hp
      rcases hp with h1 | h2
      · rw [h1]
      · exact ih h2
  rw [this]
  exact relemEq_refl p.2

/-- Unfolding one production of the predictor loop. -/
theorem predictInto_cons (b : List EState) (x : String) (i : Nat) (rhs : List RElem)
    (rest : List (List RElem)) :
    predictInto b x i (rhs :: rest) =
      predictInto (if predFound b x rhs then b else b ++ [freshState x rhs i]) x i rest := rfl

/-- The predictor loop on no productions is the identity. -/
theorem predictInto_nil (b : List EState) (x : String) (i : Nat) :
    predictInto b x i [] = b := rfl

/-- Decomposition of the predictor loop: it appends, in production order,
fresh dot-zero states exactly for the productions not found in the growing
bucket; every appended state was absent from the original bucket, and no two
appended states have `equalArrays`-equal rhs. -/
theorem predictInto_decomp (x : String) (i : Nat) :
    ∀ (rhss : List (List RElem)) (b : List EState),
      ∃ t, predictInto b x i rhss = b ++ t
        ∧ (∀ s ∈ t, s.pos = 0 ∧ s.lhs = x ∧ s.ori = i ∧ s.got = []
            ∧ s.rhs ∈ rhss ∧ predFound b x s.rhs = false)
        ∧ List.Pairwise (fun s1 s2 => equalArrays s1.rhs s2.rhs = false) t := by
  intro rhss
  induction rhss with
  | nil =>
    intro b
    refine ⟨[], by simp [predictInto_nil], ?_, List.Pairwise.nil⟩
    intro s hs
    exact absurd hs (List.not_mem_nil s)
  | cons rhs rest ih =>
    intro b
    rw [predictInto_cons]
    by_cases hf : predFound b x rhs = true
    · rw [if_pos hf]
      obtain ⟨t, h1, h2, h3⟩ := ih b
      refine ⟨t, h1, ?_, h3⟩
      intro s hs
      obtain ⟨p1, p2, p3, p4, p5, p6⟩ := h2 s hs
      exact ⟨p1, p2, p3, p4, List.mem_cons_of_mem _ p5, p6⟩
    · rw [if_neg hf]
      obtain ⟨t, h1, h2, h3⟩ := ih (b ++ [freshState x rhs i])
      refine ⟨freshState x rhs i :: t, ?_, ?_, ?_⟩
      · rw [h1, List.append_assoc]
        rfl
      · intro s hs
        rcases List.mem_cons.mp hs with h4 | h4
        · subst h4
          exact ⟨rfl, rfl, rfl, rfl, List.mem_cons_self _ _, Bool.not_eq_true _ ▸ hf⟩
        · obtain ⟨p1, p2, p3, p4, p5, p6⟩ := h2 s h4
          refine ⟨p1, p2, p3, p4, List.mem_cons_of_mem _ p5, ?_⟩
          by_contra hq
          rw [Bool.not_eq_false] at hq
          rw [predFound_append _ _ _ _ hq] at p6
          exact Bool.noConfusion p6
      · refine List.Pairwise.cons ?_ h3
        intro s hs
        obtain ⟨p1, p2, p3, p4, p5, p6⟩ := h2 s hs
        by_contra hq
        rw [Bool.not_eq_false] at hq
        have hfound : predFound (b ++ [freshState x rhs i]) x s.rhs = true := by
          simp only [predFound, List.any_append, Bool.or_eq_true]
          refine Or.inr ?_
          simp only [List.any_cons, List.any_nil, Bool.or_false, Bool.and_eq_true, beq_iff_eq]
          exact ⟨⟨rfl, hq⟩, rfl⟩
        rw [hfound] at p6
        exact Bool.noConfusion p6

/-- Completeness of the predictor loop: after it runs, every production of
`x` is present at dot zero. -/
theorem predictInto_complete (x : String) (i : Nat) :
    ∀ (rhss : List (List RElem)) (b : List EState) (rhs : List RElem), rhs ∈ rhss →
      ∃ s ∈ predictInto b x i rhss, s.lhs = x ∧ s.pos = 0 ∧ equalArrays s.rhs rhs = true := by
  intro rhss
  induction rhss with
  | nil => intro b rhs h; exact absurd h (List.not_mem_nil rhs)
  | cons rhs1 rest ih =>
    intro b rhs h
    rw [predictInto_cons]
    rcases List.mem_cons.mp h with h1 | h1
    · subst h1
      by_cases hf : predFound b x rhs = true
      · rw [if_pos hf]
        simp only [predFound, List.any_eq_true, Bool.and_eq_true, beq_iff_eq] at hf
        obtain ⟨s, hs, ⟨hl, he⟩, hp⟩ := hf
        obtain ⟨t, h2, _, _⟩ := predictInto_decomp x i rest b
        refine ⟨s, ?_, hl, by exact_mod_cast hp, he⟩
        rw [h2]
        exact List.mem_append_left _ hs
      · rw [if_neg hf]
        obtain ⟨t, h2, _, _⟩ := predictInto_decomp x i rest (b ++ [freshState x rhs i])
        refine ⟨freshState x rhs i, ?_, rfl, rfl, equalArrays_refl rhs⟩
        rw [h2]
        exact List.mem_append_left _ (List.mem_append_right _ (List.mem_singleton.mpr rfl))
    · by_cases hf : predFound b x rhs1 = true
      · rw [if_pos hf]
        exact ih b rhs h1
      · rw [if_neg hf]
        exact ih (b ++ [freshState x rhs1 i]) rhs h1


/-- The scanner case of `step`: next symbol a terminal, input remaining.  The
machine continues with the counter untouched. -/
theorem step_scanner_case (g : Grammar) (opts : Options) (input : List JVal) (m : Machine)
    (st : EState) (src : String) (h1 : atEntry m st) (h2 : getNext st = some (.re src))
    (h3 : m.i < input.length) :
    step g opts input m =
      .cont { grid :=
                if rxTest src (toJSString (input.getD m.i JVal.vundef)) then
                  setBucket m.grid (m.i + 1) (getBucket m.grid (m.i + 1) ++
                    [{ st with pos := st.pos + 1, got := st.got ++ [input.getD m.i JVal.vundef] }])
                else m.grid,
              i := m.i, j := m.j + 1, cnt := m.cnt } := by
  obtain ⟨hi, hget⟩ := h1
  have hj : m.j < (getBucket m.grid m.i).length := by
    rcases List.get?_eq_some.mp hget with ⟨h, _⟩
    exact h
  have hni : ¬ (m.i ≥ m.grid.length) := not_le.mpr hi
  have hni2 : ¬ (m.i ≥ input.length) := not_le.mpr h3
  simp only [step, hni, if_false, hj, if_true, hget, Option.getD_some, h2, hni2, ge_iff_le,
    not_le.mpr hi, not_le.mpr h3, if_false]

/-- The completer case of `step`: the machine raises the iteration limit
exactly when the appends push the pre-increment counter past a positive
`maxIterations`, and otherwise continues with the counter advanced by the
number of appends. -/
theorem step_completer_case (g : Grammar) (opts : Options) (input : List JVal) (m : Machine)
    (st : EState) (h1 : atEntry m st) (h2 : getNext st = none) :
    step g opts input m =
      (if opts.maxIterations > 0 ∧ 0 < (completions opts (getBucket m.grid st.ori) st).length
          ∧ ((m.cnt + ((completions opts (getBucket m.grid st.ori) st).length - 1) : Nat) : Int) >
            opts.maxIterations
        then .err .iterationLimit
        else .cont { grid := setBucket m.grid m.i (getBucket m.grid m.i ++
                        completions opts (getBucket m.grid st.ori) st),
                     i := m.i, j := m.j + 1,
                     cnt := m.cnt + (completions opts (getBucket m.grid st.ori) st).length }) := by
  obtain ⟨hi, hget⟩ := h1
  have hj : m.j < (getBucket m.grid m.i).length := by
    rcases List.get?_eq_some.mp hget with ⟨h, _⟩
    exact h
  simp only [step, ge_iff_le, not_le.mpr hi, if_false, hj, if_true, hget, Option.getD_some, h2]
  by_cases hc : opts.maxIterations > 0 ∧ 0 < (completions opts (getBucket m.grid st.ori) st).length
      ∧ ((m.cnt + ((completions opts (getBucket m.grid st.ori) st).length - 1) : Nat) : Int) >
        opts.maxIterations
  · rw [if_pos hc]
    rw [if_pos ?_]
    obtain ⟨c1, c2, c3⟩ := hc
    simp only [Bool.and_eq_true, decide_eq_true_eq]
    exact ⟨⟨by exact_mod_cast c1, by omega⟩, c3⟩
  · rw [if_neg hc]
    rw [if_neg ?_]
    intro hq
    apply hc
    simp only [Bool.and_eq_true, decide_eq_true_eq] at hq
    obtain ⟨⟨q1, q2⟩, q3⟩ := hq
    exact ⟨q1, by omega, q3⟩

/-- The predictor case of `step` for a known nonterminal: the bucket becomes
the predictor fold, the counter advances by one, and the limit error fires
exactly when the pre-increment counter already exceeded a positive cap. -/
theorem step_predictor_case (g : Grammar) (opts : Options) (input : List JVal) (m : Machine)
    (st : EState) (x : String) (rhss : List (List RElem))
    (h1 : atEntry m st) (h2 : getNext st = some (.nt x)) (h3 : m.i < input.length)
    (h4 : rulesLookup g.rules x = some rhss) :
    step g opts input m =
      (if iterCheck opts.maxIterations m.cnt
        then .err .iterationLimit
        else .cont { grid := setBucket m.grid m.i
                        (predictInto (getBucket m.grid m.i) x m.i rhss),
                     i := m.i, j := m.j + 1, cnt := m.cnt + 1 }) := by
  obtain ⟨hi, hget⟩ := h1
  have hj : m.j < (getBucket m.grid m.i).length := by
    rcases List.get?_eq_some.mp hget with ⟨h, _⟩
    exact h
  simp only [step, ge_iff_le, not_le.mpr hi, if_false, hj, if_true, hget, Option.getD_some, h2,
    not_le.mpr h3, h4]

/-- The predictor case of `step` for an unknown nonterminal: the
unknown-nonterminal error is raised. -/
theorem step_unknown_nt_case (g : Grammar) (opts : Options) (input : List JVal) (m : Machine)
    (st : EState) (x : String)
    (h1 : atEntry m st) (h2 : getNext st = some (.nt x)) (h3 : m.i < input.length)
    (h4 : rulesLookup g.rules x = none) :
    step g opts input m = .err (.unknownNonterminal x) := by
  obtain ⟨hi, hget⟩ := h1
  have hj : m.j < (getBucket m.grid m.i).length := by
    rcases List.get?_eq_some.mp hget with ⟨h, _⟩
    exact h
  simp only [step, ge_iff_le, not_le.mpr hi, if_false, hj, if_true, hget, Option.getD_some, h2,
    not_le.mpr h3, h4]

/-- The skip case of `step`: a state with a next symbol in the final bucket
(`i >= input.length`) is passed over untouched. -/
theorem step_skip_case (g : Grammar) (opts : Options) (input : List JVal) (m : Machine)
    (st : EState) (e : RElem)
    (h1 : atEntry m st) (h2 : getNext st = some e) (h3 : input.length ≤ m.i) :
    step g opts input m = .cont { m with j := m.j + 1 } := by
  obtain ⟨hi, hget⟩ := h1
  have hj : m.j < (getBucket m.grid m.i).length := by
    rcases List.get?_eq_some.mp hget with ⟨h, _⟩
    exact h
  simp only [step, ge_iff_le, not_le.mpr hi, if_false, hj, if_true, hget, Option.getD_some, h2, h3,
    if_true]

/-- With a non-positive `maxIterations`, no step raises the iteration limit. -/
theorem step_no_limit_when_disabled (g : Grammar) (opts : Options) (input : List JVal)
    (m : Machine) (hmax : opts.maxIterations ≤ 0) :
    step g opts input m ≠ .err .iterationLimit := by
  unfold step
  by_cases hgl : m.i ≥ m.grid.length
  · simp [hgl]
  · simp only [hgl, if_false]
    by_cases hj : m.j < (getBucket m.grid m.i).length
    · simp only [hj, if_true]
      cases hnext : getNext ((getBucket m.grid m.i).get? m.j |>.getD ⟨"", [], 0, 0, []⟩) with
      | none =>
        simp only [hnext]
        rw [if_neg ?_]
        · intro hq
          exact StepOut.noConfusion hq
        · intro hq
          simp only [Bool.and_eq_true, decide_eq_true_eq] at hq
          omega
      | some next =>
        simp only [hnext]
        by_cases hil : m.i ≥ input.length
        · simp [hil]
        · simp only [hil, if_false]
          cases next with
          | re src => simp
          | nt x =>
            cases hrl : rulesLookup g.rules x with
            | none => simp [hrl]
            | some rhss =>
              simp only [hrl]
              rw [if_neg ?_]
              · intro hq
                exact StepOut.noConfusion hq
              · intro hq
                simp only [iterCheck, Bool.and_eq_true, decide_eq_true_eq] at hq
                omega
    · simp [hj]

/-- With a non-positive `maxIterations`, no run fails with the iteration
limit. -/
theorem run_no_limit_when_disabled (g : Grammar) (opts : Options) (input : List JVal)
    (hmax : opts.maxIterations ≤ 0) :
    ∀ (fuel : Nat) (m : Machine), run g opts input fuel m ≠ .failed .iterationLimit := by
  intro fuel
  induction fuel with
  | zero => intro m h; exact RunRes.noConfusion h
  | succ f ih =>
    intro m
    unfold run
    cases hs : step g opts input m with
    | done grid => intro h; exact RunRes.noConfusion h
    | err e =>
      intro h
      have he : e = .iterationLimit := by
        have := RunRes.failed.inj h
        exact this
      subst he
      exact step_no_limit_when_disabled g opts input m hmax hs
    | cont m2 => exact ih m2

/-- Concrete grammar `S → /a/ /a/ /a/` for the iteration-counter
counterexample. -/
def wGramAAA : Grammar := (mkGrammar "S").addRule "S" [.arr [.re "a", .re "a", .re "a"]]

/-- C3, counterexample.  With `maxIterations = 1`, parsing `["a","a","a"]`
against `S → /a/ /a/ /a/` performs three scanner appends (plus one
prediction and one completer append) yet succeeds: scanner appends are not
counted, so the counter never exceeds 1, contradicting the claim that every
scanner append increments the counter and the parse must throw. -/
theorem scanner_appends_not_counted :
    parseTokens wGramAAA { defaultOptions with maxIterations := 1 }
      [.vstr "a", .vstr "a", .vstr "a"] 100 =
      .ok [.varr [.vstr "S", .vstr "a", .vstr "a", .vstr "a"]]
    ∧ parseTokens wGramAAA { defaultOptions with maxIterations := 1 }
      [.vstr "a", .vstr "a", .vstr "a"] 100 ≠ .err .iterationLimit := by
  constructor
  · rfl
  · intro h
    exact POut.noConfusion ((rfl : (POut.ok [.varr [.vstr "S", .vstr "a", .vstr "a", .vstr "a"]]) =
      parseTokens wGramAAA { defaultOptions with maxIterations := 1 }
        [.vstr "a", .vstr "a", .vstr "a"] 100).trans h)

/-- C3, amended.  The iteration counter is advanced on every completer append
and once per predictor run (one per item whose next symbol is a known
nonterminal), never on scanner appends; the iteration-limit error fires
exactly when a pre-increment counter value exceeds a positive
`maxIterations`; a non-positive `maxIterations` disables the limit. -/
theorem iteration_counter_semantics (g : Grammar) (opts : Options) (input : List JVal) :
    (∀ m st src, atEntry m st → getNext st = some (.re src) → m.i < input.length →
      ∃ m2, step g opts input m = .cont m2 ∧ m2.cnt = m.cnt)
    ∧ (∀ m st x rhss, atEntry m st → getNext st = some (.nt x) → m.i < input.length →
        rulesLookup g.rules x = some rhss →
        (step g opts input m = .err .iterationLimit ↔
          ((m.cnt : Int) > opts.maxIterations ∧ opts.maxIterations > 0))
        ∧ (¬ ((m.cnt : Int) > opts.maxIterations ∧ opts.maxIterations > 0) →
            ∃ m2, step g opts input m = .cont m2 ∧ m2.cnt = m.cnt + 1))
    ∧ (∀ m st, atEntry m st → getNext st = none →
        (step g opts input m = .err .iterationLimit ↔
          (opts.maxIterations > 0
            ∧ 0 < (completions opts (getBucket m.grid st.ori) st).length
            ∧ ((m.cnt + ((completions opts (getBucket m.grid st.ori) st).length - 1) : Nat) : Int) >
              opts.maxIterations))
        ∧ (step g opts input m ≠ .err .iterationLimit →
            ∃ m2, step g opts input m = .cont m2
              ∧ m2.cnt = m.cnt + (completions opts (getBucket m.grid st.ori) st).length))
    ∧ (opts.maxIterations ≤ 0 →
        ∀ fuel m, run g opts input fuel m ≠ .failed .iterationLimit) := by
  refine ⟨?_, ?_, ?_, ?_⟩
  · intro m st src h1 h2 h3
    exact ⟨_, step_scanner_case g opts input m st src h1 h2 h3, rfl⟩
  · intro m st x rhss h1 h2 h3 h4
    have hs := step_predictor_case g opts input m st x rhss h1 h2 h3 h4
    have hdec : iterCheck opts.maxIterations m.cnt = true ↔
        ((m.cnt : Int) > opts.maxIterations ∧ opts.maxIterations > 0) := by
      simp [iterCheck]
    constructor
    · constructor
      · intro he
        by_cases hic : iterCheck opts.maxIterations m.cnt = true
        · exact hdec.mp hic
        · rw [hs, if_neg hic] at he
          exact StepOut.noConfusion he
      · intro hc
        rw [hs, if_pos (hdec.mpr hc)]
    · intro hc
      have hic : iterCheck opts.maxIterations m.cnt = false := by
        rw [← Bool.not_eq_true]
        intro hq
        exact hc (hdec.mp hq)
      rw [hs, if_neg (by rw [hic]; exact Bool.false_ne_true)]
      exact ⟨_, rfl, rfl⟩
  · intro m st h1 h2
    have hs := step_completer_case g opts input m st h1 h2
    constructor
    · constructor
      · intro he
        by_cases hc : opts.maxIterations > 0
            ∧ 0 < (completions opts (getBucket m.grid st.ori) st).length
            ∧ ((m.cnt + ((completions opts (getBucket m.grid st.ori) st).length - 1) : Nat) : Int) >
              opts.maxIterations
        · exact hc
        · rw [hs, if_neg hc] at he
          exact StepOut.noConfusion he
      · intro hc
        rw [hs, if_pos hc]
    · intro hne
      rw [hs] at hne ⊢
      by_cases hc : opts.maxIterations > 0
          ∧ 0 < (completions opts (getBucket m.grid st.ori) st).length
          ∧ ((m.cnt + ((completions opts (getBucket m.grid st.ori) st).length - 1) : Nat) : Int) >
            opts.maxIterations
      · exact absurd (by rw [if_pos hc]) hne
      · rw [if_neg hc]
        exact ⟨_, rfl, rfl⟩
  · intro hmax fuel m
    exact run_no_limit_when_disabled g opts input hmax fuel m

/-- Concrete state and machine for the counter-semantics witness. -/
def wStA : EState := { lhs := "S", rhs := [.re "^a$"], pos := 0, ori := 0, got := [] }

/-- Machine holding `wStA` with counter 5. -/
def wMachA : Machine := { grid := [[wStA], []], i := 0, j := 0, cnt := 5 }

/-- C3, witness: a scanner step leaves the counter at 5, and the default
`maxIterations = -1` disables the limit on a whole run. -/
theorem iteration_counter_semantics_witness :
    (∃ m2, step wGramA defaultOptions [JVal.vstr "a"] wMachA = .cont m2 ∧ m2.cnt = wMachA.cnt)
    ∧ run wGramA defaultOptions [JVal.vstr "a"] 40 (initMachine wGramA [JVal.vstr "a"]) ≠
        .failed .iterationLimit :=
  ⟨(iteration_counter_semantics wGramA defaultOptions [.vstr "a"]).1 wMachA wStA "^a$"
      ⟨by decide, rfl⟩ rfl (by decide),
   (iteration_counter_semantics wGramA defaultOptions [.vstr "a"]).2.2.2 (by decide) 40
      (initMachine wGramA [.vstr "a"])⟩

/-- Concrete grammar `S → /a/ B` with `B` undefined. -/
def wGramC5 : Grammar := (mkGrammar "S").addRule "S" [.arr [.re "a", .nt "B"]]

/-- C5, counterexample.  Parsing `["a"]` against `S → /a/ B` with `B`
undefined leaves, in the final bucket, a state whose next symbol is the
undefined nonterminal `B`; the parse nevertheless returns the empty result
instead of raising the unknown-nonterminal error, because states with a next
symbol are skipped once `i` reaches the input length — the predictor never
runs in the final bucket. -/
theorem no_unknown_nonterminal_from_final_bucket :
    parseTokens wGramC5 defaultOptions [.vstr "a"] 100 = .ok []
    ∧ parseTokens wGramC5 defaultOptions [.vstr "a"] 100 ≠
        .err (.unknownNonterminal "B") := by
  constructor
  · rfl
  · intro h
    exact POut.noConfusion ((rfl : (POut.ok []) =
      parseTokens wGramC5 defaultOptions [.vstr "a"] 100).trans h)

/-- C5, amended.  For every bucket index `i < N` and item whose next symbol
is a nonterminal `X`, the predictor runs: it raises the unknown-nonterminal
error when `X` has no entry in the rule table, and otherwise appends a fresh
dot-zero item with origin `i` for each production of `X` not already present
at dot zero (checking presence against the growing bucket), after which
every production of `X` is present at dot zero.  In the final bucket
(`i = N`) items with a next symbol are skipped: no prediction runs and no
error is raised there. -/
theorem predictor_runs_below_final_bucket (g : Grammar) (opts : Options) (input : List JVal) :
    (∀ m st x, atEntry m st → getNext st = some (.nt x) → m.i < input.length →
      (rulesLookup g.rules x = none → step g opts input m = .err (.unknownNonterminal x))
      ∧ (∀ rhss, rulesLookup g.rules x = some rhss →
          iterCheck opts.maxIterations m.cnt = false →
          ∃ m2 t, step g opts input m = .cont m2
            ∧ getBucket m2.grid m.i = getBucket m.grid m.i ++ t
            ∧ (∀ s ∈ t, s.pos = 0 ∧ s.lhs = x ∧ s.ori = m.i ∧ s.got = []
                ∧ s.rhs ∈ rhss ∧ predFound (getBucket m.grid m.i) x s.rhs = false)
            ∧ (∀ rhs ∈ rhss, ∃ s ∈ getBucket m2.grid m.i,
                s.lhs = x ∧ s.pos = 0 ∧ equalArrays s.rhs rhs = true)))
    ∧ (∀ m st e, atEntry m st → getNext st = some e → input.length ≤ m.i →
        step g opts input m = .cont { m with j := m.j + 1 }) := by
  constructor
  · intro m st x h1 h2 h3
    constructor
    · intro h4
      exact step_unknown_nt_case g opts input m st x h1 h2 h3 h4
    · intro rhss h4 hic
      have hs := step_predictor_case g opts input m st x rhss h1 h2 h3 h4
      rw [if_neg (by rw [hic]; exact Bool.false_ne_true)] at hs
      obtain ⟨t, hd1, hd2, _⟩ := predictInto_decomp x m.i rhss (getBucket m.grid m.i)
      refine ⟨_, t, hs, ?_, hd2, ?_⟩
      · show getBucket (setBucket m.grid m.i (predictInto (getBucket m.grid m.i) x m.i rhss)) m.i
            = getBucket m.grid m.i ++ t
        rw [getBucket_setBucket_self _ _ _ h1.1, hd1]
      · intro rhs hr
        obtain ⟨sfound, hmem, hprops⟩ := predictInto_complete x m.i rhss (getBucket m.grid m.i) rhs hr
        refine ⟨sfound, ?_, hprops⟩
        show sfound ∈ getBucket (setBucket m.grid m.i (predictInto (getBucket m.grid m.i) x m.i rhss)) m.i
        rw [getBucket_setBucket_self _ _ _ h1.1]
        exact hmem
  · intro m st e h1 h2 h3
    exact step_skip_case g opts input m st e h1 h2 h3

/-- Concrete state whose next symbol is the undefined nonterminal `B`. -/
def wStB : EState := { lhs := "S", rhs := [.nt "B"], pos := 0, ori := 0, got := [] }

/-- Machine holding `wStB`. -/
def wMachB : Machine := { grid := [[wStB], []], i := 0, j := 0, cnt := 0 }

/-- Machine holding `wStB` on an empty input (so `i = N = 0`). -/
def wMachB0 : Machine := { grid := [[wStB]], i := 0, j := 0, cnt := 0 }

/-- The synthetic seed state over start symbol `S`. -/
def wStSeed : EState := { lhs := "", rhs := [.nt "S"], pos := 0, ori := 0, got := [] }

/-- C5, witness: below the final bucket an undefined nonterminal raises the
error and a defined one is predicted; in the final bucket a state with a
next symbol is skipped. -/
theorem predictor_runs_below_final_bucket_witness :
    step wGramC5 defaultOptions [JVal.vstr "a"] wMachB = .err (.unknownNonterminal "B")
    ∧ (∃ m2 t, step wGramC5 defaultOptions [JVal.vstr "a"]
          { grid := [[wStSeed], []], i := 0, j := 0, cnt := 0 } = .cont m2
        ∧ getBucket m2.grid 0 = getBucket ([[wStSeed], []] : List (List EState)) 0 ++ t
        ∧ (∀ s ∈ t, s.pos = 0 ∧ s.lhs = "S" ∧ s.ori = 0 ∧ s.got = []
            ∧ s.rhs ∈ [[RElem.re "^a$", RElem.nt "B"]]
            ∧ predFound (getBucket ([[wStSeed], []] : List (List EState)) 0) "S" s.rhs = false)
        ∧ (∀ rhs ∈ [[RElem.re "^a$", RElem.nt "B"]], ∃ s ∈ getBucket m2.grid 0,
            s.lhs = "S" ∧ s.pos = 0 ∧ equalArrays s.rhs rhs = true))
    ∧ step wGramC5 defaultOptions [] wMachB0 = .cont { wMachB0 with j := wMachB0.j + 1 } := by
  refine ⟨?_, ?_, ?_⟩
  · exact ((predictor_runs_below_final_bucket wGramC5 defaultOptions [.vstr "a"]).1 wMachB wStB "B"
      ⟨by decide, rfl⟩ rfl (by decide)).1 rfl
  · exact ((predictor_runs_below_final_bucket wGramC5 defaultOptions [.vstr "a"]).1
      { grid := [[wStSeed], []], i := 0, j := 0, cnt := 0 } wStSeed "S" ⟨by decide, rfl⟩ rfl
      (by decide)).2 [[RElem.re "^a$", RElem.nt "B"]] rfl rfl
  · exact (predictor_runs_below_final_bucket wGramC5 defaultOptions []).2 wMachB0 wStB (.nt "B")
      ⟨by decide, rfl⟩ rfl (by decide)

/-! ### C8: the grid never holds duplicate dot-zero predictions -/

/-- The equality on rhs entries described by the specification: regexes
compare by source pattern, strings by value, and the kinds never mix. -/
def claimElemEq : RElem → RElem → Bool
  | .nt a, .nt b => a == b
  | .re a, .re b => a == b
  | _, _ => false

/-- Elementwise specification-level rhs equality. -/
def claimEqArrays (a b : List RElem) : Bool :=
  a.length == b.length && (List.zip a b).all (fun p => claimElemEq p.1 p.2)

/-- The specification's equality is contained in the code's `equalArrays`
(which in addition equates a string with a regex whose string coercion it
matches). -/
theorem claimEqArrays_le (a b : List RElem) (h : claimEqArrays a b = true) :
    equalArrays a b = true := by
  simp only [claimEqArrays, Bool.and_eq_true, beq_iff_eq, List.all_eq_true] at h
  simp only [equalArrays, Bool.and_eq_true, beq_iff_eq, List.all_eq_true]
  refine ⟨h.1, ?_⟩
  intro p hp
  have h2 := h.2 p hp
  cases hp1 : p.1 with
  | nt n1 =>
    cases hp2 : p.2 with
    | nt n2 =>
      rw [hp1, hp2] at h2
      simp only [claimElemEq, beq_iff_eq] at h2
      simp [relemEq, h2]
    | re r2 =>
      rw [hp1, hp2] at h2
      simp [claimElemEq] at h2
  | re r1 =>
    cases hp2 : p.2 with
    | nt n2 =>
      rw [hp1, hp2] at h2
      simp [claimElemEq] at h2
    | re r2 =>
      rw [hp1, hp2] at h2
      simp only [claimElemEq, beq_iff_eq] at h2
      simp [relemEq, h2]

/-- No two states of a bucket are both dot-zero duplicates of one another
under the code's `equalArrays`. -/
def noDupPred (bucket : List EState) : Prop :=
  List.Pairwise (fun s t =>
    ¬(s.pos = 0 ∧ t.pos = 0 ∧ s.lhs = t.lhs ∧ equalArrays s.rhs t.rhs = true)) bucket

/-- All buckets of a grid satisfy `noDupPred`. -/
def gridInv (grid : List (List EState)) : Prop :=
  ∀ b ∈ grid, noDupPred b

/-- Membership after a bucket write. -/
theorem mem_setBucket (grid : List (List EState)) (k : Nat) (b b2 : List EState)
    (h : b2 ∈ setBucket grid k b) : b2 = b ∨ b2 ∈ grid := by
  induction grid generalizing k with
  | nil => exact Or.inr h
  | cons x xs ih =>
    cases k with
    | zero =>
      rcases List.mem_cons.mp h with h1 | h1
      · exact Or.inl h1
      · exact Or.inr (List.mem_cons_of_mem _ h1)
    | succ k2 =>
      rcases List.mem_cons.mp h with h1 | h1
      · exact Or.inr (h1 ▸ List.mem_cons_self _ _)
      · rcases ih k2 h1 with h2 | h2
        · exact Or.inl h2
        · exact Or.inr (List.mem_cons_of_mem _ h2)

/-- Writing a `noDupPred` bucket preserves the grid invariant. -/
theorem gridInv_setBucket (grid : List (List EState)) (k : Nat) (b : List EState)
    (hg : gridInv grid) (hb : noDupPred b) : gridInv (setBucket grid k b) := by
  intro b2 h
  rcases mem_setBucket grid k b b2 h with h1 | h1
  · exact h1 ▸ hb
  · exact hg b2 h1

/-- Pairwise from a property of the second component alone. -/
theorem pairwise_from_mem {α : Type} (R : α → α → Prop) (l : List α)
    (h : ∀ b ∈ l, ∀ a, R a b) : List.Pairwise R l := by
  induction l with
  | nil => exact List.Pairwise.nil
  | cons x xs ih =>
    refine List.Pairwise.cons ?_ (ih ?_)
    · intro b hb
      exact h b (List.mem_cons_of_mem _ hb) x
    · intro b hb a
      exact h b (List.mem_cons_of_mem _ hb) a

/-- Appending only advanced (nonzero-dot) states preserves `noDupPred`. -/
theorem noDupPred_append_advanced (b l : List EState) (hb : noDupPred b)
    (hl : ∀ s ∈ l, s.pos ≠ 0) : noDupPred (b ++ l) := by
  unfold noDupPred
  rw [List.pairwise_append]
  refine ⟨hb, ?_, ?_⟩
  · exact pairwise_from_mem _ l (fun t ht a hq => (hl t ht) hq.2.1)
  · intro a _ t ht hq
    exact (hl t ht) hq.2.1

/-- Every completer append has its dot advanced past zero. -/
theorem completions_pos (opts : Options) (origin : List EState) (st : EState) :
    ∀ s2 ∈ completions opts origin st, s2.pos ≠ 0 := by
  intro s2 h
  simp only [completions, List.mem_filterMap] at h
  obtain ⟨s, _, hs⟩ := h
  by_cases hc : nextMatchesLhs (getNext s) st.lhs = true
  · rw [if_pos hc] at hs
    have : s2.pos = s.pos + 1 := by
      rw [← Option.some.inj hs]
    omega
  · rw [if_neg hc] at hs
    exact Option.noConfusion hs

/-- The predictor's appends keep the bucket duplicate-free: the appended
dot-zero states are absent from the bucket and mutually distinct. -/
theorem noDupPred_predictInto (b : List EState) (x : String) (i : Nat)
    (rhss : List (List RElem)) (hb : noDupPred b) :
    noDupPred (predictInto b x i rhss) := by
  obtain ⟨t, h1, h2, h3⟩ := predictInto_decomp x i rhss b
  rw [h1]
  unfold noDupPred
  rw [List.pairwise_append]
  refine ⟨hb, ?_, ?_⟩
  · -- the appended states are pairwise non-equal by `equalArrays`
    refine List.Pairwise.imp ?_ h3
    intro s1 s2 hne hq
    rw [hq.2.2.2] at hne
    exact Bool.noConfusion hne
  · intro a ha t2 ht2 hq
    obtain ⟨p1, p2, p3, p4, p5, p6⟩ := h2 t2 ht2
    have hfound : predFound b x t2.rhs = true := by
      simp only [predFound, List.any_eq_true, Bool.and_eq_true, beq_iff_eq]
      exact ⟨a, ha, ⟨hq.2.2.1.trans p2, hq.2.2.2⟩, by simpa using hq.1⟩
    rw [hfound] at p6
    exact Bool.noConfusion p6

/-- The bucket-exhausted case of `step`: advance to the next state set. -/
theorem step_advance_case (g : Grammar) (opts : Options) (input : List JVal) (m : Machine)
    (h1 : ¬ (m.i ≥ m.grid.length)) (h2 : ¬ (m.j < (getBucket m.grid m.i).length)) :
    step g opts input m = .cont { grid := m.grid, i := m.i + 1, j := 0, cnt := m.cnt } := by
  simp only [step, h1, if_false, h2]

/-- A bucket of the grid is one of its members. -/
theorem getBucket_mem_or_nil (grid : List (List EState)) (k : Nat) :
    getBucket grid k ∈ grid ∨ getBucket grid k = [] := by
  by_cases hk : k < grid.length
  · refine Or.inl ?_
    unfold getBucket
    rw [List.get?_eq_get hk]
    exact List.get_mem _ _ _
  · refine Or.inr ?_
    unfold getBucket
    rw [List.get?_eq_none.mpr (by omega)]
    rfl

/-- A bucket of an invariant grid satisfies `noDupPred`. -/
theorem gridInv_getBucket (grid : List (List EState)) (k : Nat) (hg : gridInv grid) :
    noDupPred (getBucket grid k) := by
  rcases getBucket_mem_or_nil grid k with h | h
  · exact hg _ h
  · rw [h]
    exact List.Pairwise.nil

/-- One machine step preserves the grid invariant. -/
theorem step_preserves_gridInv (g : Grammar) (opts : Options) (input : List JVal)
    (m m2 : Machine) (hstep : step g opts input m = .cont m2) (hg : gridInv m.grid) :
    gridInv m2.grid := by
  by_cases hgl : m.i ≥ m.grid.length
  · unfold step at hstep
    rw [if_pos hgl] at hstep
    exact StepOut.noConfusion hstep
  · by_cases hj : m.j < (getBucket m.grid m.i).length
    · obtain ⟨v, hv⟩ : ∃ v, (getBucket m.grid m.i).get? m.j = some v := by
        cases hx : (getBucket m.grid m.i).get? m.j with
        | none =>
          have := List.get?_eq_none.mp hx
          omega
        | some v => exact ⟨v, rfl⟩
      have hAt : atEntry m v := ⟨by omega, hv⟩
      cases hnext : getNext v with
      | none =>
        rw [step_completer_case g opts input m v hAt hnext] at hstep
        by_cases hlim : opts.maxIterations > 0
            ∧ 0 < (completions opts (getBucket m.grid v.ori) v).length
            ∧ ((m.cnt + ((completions opts (getBucket m.grid v.ori) v).length - 1) : Nat) : Int) >
              opts.maxIterations
        · rw [if_pos hlim] at hstep
          exact StepOut.noConfusion hstep
        · rw [if_neg hlim] at hstep
          rw [← StepOut.cont.inj hstep]
          apply gridInv_setBucket _ _ _ hg
          exact noDupPred_append_advanced _ _ (gridInv_getBucket _ _ hg)
            (completions_pos _ _ _)
      | some next =>
        by_cases hil : m.i ≥ input.length
        · rw [step_skip_case g opts input m v next hAt hnext hil] at hstep
          rw [← StepOut.cont.inj hstep]
          exact hg
        · cases next with
          | re src =>
            rw [step_scanner_case g opts input m v src hAt hnext (not_le.mp hil)] at hstep
            rw [← StepOut.cont.inj hstep]
            by_cases ht : rxTest src (toJSString (input.getD m.i JVal.vundef)) = true
            · rw [if_pos ht]
              apply gridInv_setBucket _ _ _ hg
              apply noDupPred_append_advanced _ _ (gridInv_getBucket _ _ hg)
              intro s2 hs2
              rw [List.mem_singleton.mp hs2]
              simp
            · rw [if_neg ht]
              exact hg
          | nt x =>
            cases hrl : rulesLookup g.rules x with
            | none =>
              rw [step_unknown_nt_case g opts input m v x hAt hnext (not_le.mp hil) hrl] at hstep
              exact StepOut.noConfusion hstep
            | some rhss =>
              rw [step_predictor_case g opts input m v x rhss hAt hnext (not_le.mp hil) hrl]
                at hstep
              by_cases hic : iterCheck opts.maxIterations m.cnt = true
              · rw [if_pos hic] at hstep
                exact StepOut.noConfusion hstep
              · rw [if_neg hic] at hstep
                rw [← StepOut.cont.inj hstep]
                apply gridInv_setBucket _ _ _ hg
                exact noDupPred_predictInto _ _ _ _ (gridInv_getBucket _ _ hg)
    · rw [step_advance_case g opts input m hgl hj] at hstep
      rw [← StepOut.cont.inj hstep]
      exact hg

/-- Iterate `k` continuing machine steps. -/
def stepsFrom (g : Grammar) (opts : Options) (input : List JVal) : Nat → Machine → Option Machine
  | 0, m => some m
  | k + 1, m =>
    match step g opts input m with
    | .cont m2 => stepsFrom g opts input k m2
    | _ => none

/-- The invariant holds along any step sequence. -/
theorem stepsFrom_gridInv (g : Grammar) (opts : Options) (input : List JVal) :
    ∀ (k : Nat) (m m2 : Machine), stepsFrom g opts input k m = some m2 → gridInv m.grid →
      gridInv m2.grid := by
  intro k
  induction k with
  | zero =>
    intro m m2 h hg
    rw [← Option.some.inj h]
    exact hg
  | succ k2 ih =>
    intro m m2 h hg
    unfold stepsFrom at h
    cases hs : step g opts input m with
    | cont m3 =>
      rw [hs] at h
      exact ih m3 m2 h (step_preserves_gridInv g opts input m m3 hs hg)
    | done grid => rw [hs] at h; exact Option.noConfusion h
    | err e => rw [hs] at h; exact Option.noConfusion h

/-- The initial grid satisfies the invariant. -/
theorem initMachine_gridInv (g : Grammar) (input : List JVal) :
    gridInv (initMachine g input).grid := by
  intro b hb
  rcases List.mem_cons.mp hb with h1 | h1
  · rw [h1]
    exact List.Pairwise.cons (fun t ht => absurd ht (List.not_mem_nil t)) List.Pairwise.nil
  · rw [List.eq_of_mem_replicate h1]
    exact List.Pairwise.nil

/-- C8.  At every point during a parse — after any number of machine steps
from the seeded grid — no bucket contains two distinct dot-zero items with
the same lhs and elementwise-equal rhs, where regex entries compare by
source pattern and string entries by value (`claimEqArrays`).  The machine
guarantees this even under the coarser `equalArrays` the code uses for the
check. -/
theorem grid_free_of_duplicate_predictions (g : Grammar) (opts : Options) (input : List JVal)
    (k : Nat) (m : Machine)
    (h : stepsFrom g opts input k (initMachine g input) = some m) :
    ∀ b ∈ m.grid, List.Pairwise (fun s t =>
      ¬(s.pos = 0 ∧ t.pos = 0 ∧ s.lhs = t.lhs ∧ claimEqArrays s.rhs t.rhs = true)) b := by
  have hg := stepsFrom_gridInv g opts input k (initMachine g input) m h
    (initMachine_gridInv g input)
  intro b hb
  refine List.Pairwise.imp ?_ (hg b hb)
  intro s t hne hq
  exact hne ⟨hq.1, hq.2.1, hq.2.2.1, claimEqArrays_le _ _ hq.2.2.2⟩

/-- C8, witness: the invariant after three steps of parsing `["a"]` with the
two-rule grammar `S → a | b`. -/
theorem grid_free_of_duplicate_predictions_witness :
    (stepsFrom wGramAB defaultOptions [JVal.vstr "a"] 3
        (initMachine wGramAB [JVal.vstr "a"])).isSome = true
    ∧ ∀ b ∈ ((stepsFrom wGramAB defaultOptions [JVal.vstr "a"] 3
        (initMachine wGramAB [JVal.vstr "a"])).getD (initMachine wGramAB [JVal.vstr "a"])).grid,
      List.Pairwise (fun s t =>
        ¬(s.pos = 0 ∧ t.pos = 0 ∧ s.lhs = t.lhs ∧ claimEqArrays s.rhs t.rhs = true)) b :=
  ⟨rfl, grid_free_of_duplicate_predictions wGramAB defaultOptions [.vstr "a"] 3 _ rfl⟩

/-! ### C6: textual anchoring of terminals

`addRule` stores `new RegExp( "^" + source + "$" )`.  The lemmas below
characterise that textual operation in the matcher fragment: wrapping an
already-wrapped source changes nothing, and for a source without top-level
alternation the wrap forces whole-token matching — while with alternation it
does not. -/

/-- `splitAlts` never returns the empty list of alternatives. -/
theorem splitAlts_ne_nil : ∀ (cs : List Char), splitAlts cs ≠ [] := by
  intro cs
  induction cs with
  | nil => simp [splitAlts]
  | cons c rest ih =>
    by_cases hc : c = '|'
    · simp [splitAlts, hc]
    · simp only [splitAlts, hc, if_false]
      cases hs : splitAlts rest with
      | nil => exact absurd hs ih
      | cons a as => simp

/-- Prepend a caret to the first alternative. -/
def prepCaret : List (List Char) → List (List Char)
  | [] => [['^']]
  | a :: as => ('^' :: a) :: as

/-- Append a dollar to the last alternative. -/
def lastApp : List (List Char) → List (List Char)
  | [] => []
  | [a] => [a ++ ['$']]
  | a :: b :: bs => a :: lastApp (b :: bs)

/-- `lastApp` preserves nonemptiness. -/
theorem lastApp_ne_nil : ∀ (ls : List (List Char)), ls ≠ [] → lastApp ls ≠ [] := by
  intro ls h
  cases ls with
  | nil => exact absurd rfl h
  | cons a as => cases as with
    | nil => simp [lastApp]
    | cons b bs => simp [lastApp]

/-- Splitting after a leading caret. -/
theorem splitAlts_caret (cs : List Char) :
    splitAlts ('^' :: cs) = prepCaret (splitAlts cs) := by
  simp only [splitAlts, show ('^' : Char) ≠ '|' from by decide, if_false]
  cases hs : splitAlts cs with
  | nil => exact absurd hs (splitAlts_ne_nil cs)
  | cons a as => rfl

/-- Splitting before a trailing dollar. -/
theorem splitAlts_dollar : ∀ (cs : List Char),
    splitAlts (cs ++ ['$']) = lastApp (splitAlts cs) := by
  intro cs
  induction cs with
  | nil => rfl
  | cons c rest ih =>
    by_cases hc : c = '|'
    · subst hc
      show splitAlts ('|' :: (rest ++ ['$'])) = lastApp (splitAlts ('|' :: rest))
      simp only [splitAlts, if_pos rfl]
      rw [ih]
      cases hs : splitAlts rest with
      | nil => exact absurd hs (splitAlts_ne_nil rest)
      | cons b bs => rfl
    · show splitAlts (c :: (rest ++ ['$'])) = lastApp (splitAlts (c :: rest))
      simp only [splitAlts, hc, if_false]
      rw [ih]
      cases hs : splitAlts rest with
      | nil => exact absurd hs (splitAlts_ne_nil rest)
      | cons b bs =>
        cases bs with
        | nil => rfl
        | cons b2 bs2 => rfl

/-- A doubled leading caret matches the same as a single one. -/
theorem atomsMatch_caret_caret (cs : List Char) (atoms : List Char) (p : Nat) :
    atomsMatch cs ('^' :: '^' :: atoms) p = atomsMatch cs ('^' :: atoms) p := by
  by_cases hp : p = 0 <;> simp [atomsMatch, hp]

/-- A doubled trailing dollar matches the same as a single one. -/
theorem atomsMatch_dollar_dollar (cs : List Char) :
    ∀ (atoms : List Char) (p : Nat),
      atomsMatch cs (atoms ++ ['$', '$']) p = atomsMatch cs (atoms ++ ['$']) p := by
  intro atoms
  induction atoms with
  | nil =>
    intro p
    by_cases hp : p = cs.length <;> simp [atomsMatch, hp]
  | cons a rest ih =>
    intro p
    show atomsMatch cs (a :: (rest ++ ['$', '$'])) p = atomsMatch cs (a :: (rest ++ ['$'])) p
    by_cases h1 : a = '^'
    · by_cases hp : p = 0 <;> simp [atomsMatch, h1, hp, ih]
    · by_cases h2 : a = '$'
      · by_cases hp : p = cs.length <;> simp [atomsMatch, h1, h2, hp, ih]
      · simp only [atomsMatch, h1, h2, if_false]
        cases cs.get? p with
        | none => rfl
        | some c => by_cases hca : c = a <;> simp [hca, ih]

/-- Appending a dollar to an alternative succeeds exactly on matches that end
at the end of the token. -/
theorem atomsMatch_append_dollar (cs : List Char) :
    ∀ (atoms : List Char) (p : Nat),
      atomsMatch cs (atoms ++ ['$']) p =
        (match atomsMatch cs atoms p with
          | some e => if e = cs.length then some e else none
          | none => none) := by
  intro atoms
  induction atoms with
  | nil =>
    intro p
    by_cases hp : p = cs.length <;> simp [atomsMatch, hp]
  | cons a rest ih =>
    intro p
    show atomsMatch cs (a :: (rest ++ ['$'])) p = _
    by_cases h1 : a = '^'
    · by_cases hp : p = 0 <;> simp [atomsMatch, h1, hp, ih]
    · by_cases h2 : a = '$'
      · by_cases hp : p = cs.length <;> simp [atomsMatch, h1, h2, hp, ih]
      · simp only [atomsMatch, h1, h2, if_false]
        cases cs.get? p with
        | none => rfl
        | some c => by_cases hca : c = a <;> simp [hca, ih]

/-- A caret-led alternative matches only at position zero. -/
theorem atomsMatch_caret_pos (cs : List Char) (atoms : List Char) (p : Nat) (hp : p ≠ 0) :
    atomsMatch cs ('^' :: atoms) p = none := by
  simp [atomsMatch, hp]

/-- Doubly dollar-suffixed alternatives match like singly suffixed ones. -/
theorem rxMatchAt_lastApp_lastApp (cs : List Char) :
    ∀ (A : List (List Char)), A ≠ [] → ∀ (p : Nat),
      rxMatchAt (lastApp (lastApp A)) cs p = rxMatchAt (lastApp A) cs p := by
  intro A
  induction A with
  | nil => intro h; exact absurd rfl h
  | cons a as ih =>
    intro _ p
    cases as with
    | nil =>
      show rxMatchAt (lastApp [a ++ ['$']]) cs p = rxMatchAt [a ++ ['$']] cs p
      show rxMatchAt [(a ++ ['$']) ++ ['$']] cs p = rxMatchAt [a ++ ['$']] cs p
      simp only [rxMatchAt, List.findSome?_cons]
      rw [List.append_assoc]
      rw [show (['$'] ++ ['$'] : List Char) = ['$', '$'] from rfl]
      rw [atomsMatch_dollar_dollar]
    | cons b bs =>
      show rxMatchAt (lastApp (a :: lastApp (b :: bs))) cs p = rxMatchAt (a :: lastApp (b :: bs)) cs p
      cases hL : lastApp (b :: bs) with
      | nil => exact absurd hL (lastApp_ne_nil _ (by simp))
      | cons L Ls =>
        show rxMatchAt (a :: lastApp (L :: Ls)) cs p = rxMatchAt (a :: (L :: Ls)) cs p
        simp only [rxMatchAt, List.findSome?_cons]
        cases atomsMatch cs a p with
        | some e => rfl
        | none =>
          have := ih (by simp) p
          rw [hL] at this
          simpa [rxMatchAt] using this

/-- Wrapping an already-wrapped pattern does not change where it matches. -/
theorem rxMatchAt_wrap_wrap (cs : List Char) (A : List (List Char)) (hA : A ≠ []) (p : Nat) :
    rxMatchAt (prepCaret (prepCaret (lastApp (lastApp A)))) cs p =
      rxMatchAt (prepCaret (lastApp A)) cs p := by
  cases A with
  | nil => exact absurd rfl hA
  | cons a as =>
    cases as with
    | nil =>
      show rxMatchAt (prepCaret (prepCaret (lastApp [a ++ ['$']]))) cs p =
        rxMatchAt (prepCaret [a ++ ['$']]) cs p
      show rxMatchAt ['^' :: '^' :: ((a ++ ['$']) ++ ['$'])] cs p =
        rxMatchAt ['^' :: (a ++ ['$'])] cs p
      simp only [rxMatchAt, List.findSome?_cons]
      rw [atomsMatch_caret_caret]
      rw [List.append_assoc]
      rw [show (['$'] ++ ['$'] : List Char) = ['$', '$'] from rfl]
      have := atomsMatch_dollar_dollar cs ('^' :: a) p
      rw [show ('^' :: a) ++ ['$', '$'] = '^' :: (a ++ ['$', '$']) from rfl] at this
      rw [show ('^' :: a) ++ ['$'] = '^' :: (a ++ ['$']) from rfl] at this
      rw [this]
    | cons b bs =>
      show rxMatchAt (prepCaret (prepCaret (lastApp (a :: lastApp (b :: bs))))) cs p =
        rxMatchAt (prepCaret (a :: lastApp (b :: bs))) cs p
      cases hL : lastApp (b :: bs) with
      | nil => exact absurd hL (lastApp_ne_nil _ (by simp))
      | cons L Ls =>
        show rxMatchAt (prepCaret (prepCaret (a :: lastApp (L :: Ls)))) cs p =
          rxMatchAt (('^' :: a) :: (L :: Ls)) cs p
        show rxMatchAt (('^' :: '^' :: a) :: lastApp (L :: Ls)) cs p =
          rxMatchAt (('^' :: a) :: (L :: Ls)) cs p
        simp only [rxMatchAt, List.findSome?_cons]
        rw [atomsMatch_caret_caret]
        cases atomsMatch cs ('^' :: a) p with
        | some e => rfl
        | none =>
          have := rxMatchAt_lastApp_lastApp cs (b :: bs) (by simp) p
          rw [hL] at this
          simpa [rxMatchAt] using this

/-- Appending the dollar and prepending the caret act on different ends and
commute on nonempty alternative lists. -/
theorem lastApp_prepCaret (X : List (List Char)) (hX : X ≠ []) :
    lastApp (prepCaret X) = prepCaret (lastApp X) := by
  cases X with
  | nil => exact absurd rfl hX
  | cons a as =>
    cases as with
    | nil => rfl
    | cons b bs =>
      show lastApp (('^' :: a) :: b :: bs) = prepCaret (a :: lastApp (b :: bs))
      cases hL : lastApp (b :: bs) with
      | nil => exact absurd hL (lastApp_ne_nil _ (by simp))
      | cons L Ls =>
        show ('^' :: a) :: lastApp (b :: bs) = ('^' :: a) :: L :: Ls
        rw [hL]

/-- The alternatives of a singly wrapped source. -/
theorem splitAlts_wrap (r : String) :
    splitAlts (("^" ++ r ++ "$").data) = prepCaret (lastApp (splitAlts r.data)) := by
  have h : ("^" ++ r ++ "$").data = '^' :: (r.data ++ ['$']) := rfl
  rw [h, splitAlts_caret, splitAlts_dollar]

/-- The alternatives of a doubly wrapped source. -/
theorem splitAlts_wrap_wrap (r : String) :
    splitAlts (("^" ++ ("^" ++ r ++ "$") ++ "$").data) =
      prepCaret (prepCaret (lastApp (lastApp (splitAlts r.data)))) := by
  have h : ("^" ++ ("^" ++ r ++ "$") ++ "$").data =
      '^' :: (('^' :: (r.data ++ ['$'])) ++ ['$']) := rfl
  rw [h, splitAlts_caret, splitAlts_dollar, splitAlts_caret, splitAlts_dollar]
  rw [lastApp_prepCaret _ (lastApp_ne_nil _ (splitAlts_ne_nil _))]

/-- Re-anchoring an already anchored terminal source leaves its `test`
behaviour unchanged: `^(^r$)$` tests exactly like `^r$`. -/
theorem rxTest_wrap_wrap (r s : String) :
    rxTest ("^" ++ ("^" ++ r ++ "$") ++ "$") s = rxTest ("^" ++ r ++ "$") s := by
  unfold rxTest rxExecList
  have hx : ∀ p, rxMatchAt (splitAlts ("^" ++ ("^" ++ r ++ "$") ++ "$").data) s.data p =
      rxMatchAt (splitAlts ("^" ++ r ++ "$").data) s.data p := by
    intro p
    rw [splitAlts_wrap_wrap, splitAlts_wrap,
      rxMatchAt_wrap_wrap s.data (splitAlts r.data) (splitAlts_ne_nil _) p]
  simp only [hx]

/-- A bar-free source is a single alternative. -/
theorem splitAlts_no_bar : ∀ (cs : List Char), '|' ∉ cs → splitAlts cs = [cs] := by
  intro cs
  induction cs with
  | nil => intro _; rfl
  | cons c rest ih =>
    intro h
    have hc : c ≠ '|' := fun hq => h (hq ▸ List.mem_cons_self c rest)
    simp only [splitAlts, hc, if_false]
    rw [ih (fun hq => h (List.mem_cons_of_mem c hq))]

/-- Whole-token matching of a source against a token: its atoms consume the
token exactly from start to end. -/
def wholeTokenMatch (r s : String) : Bool :=
  match atomsMatch s.data r.data 0 with
  | some e => e == s.data.length
  | none => false

/-- For a source without top-level alternation, the anchored form stored by
`addRule` tests a token exactly by whole-token matching. -/
theorem rxTest_wrap_no_alternation (r : String) (h : '|' ∉ r.data) (s : String) :
    rxTest ("^" ++ r ++ "$") s = wholeTokenMatch r s := by
  unfold rxTest rxExecList
  rw [splitAlts_wrap, splitAlts_no_bar r.data h]
  show (List.findSome? (fun p => (rxMatchAt ['^' :: (r.data ++ ['$'])] s.data p).map (fun e => (p, e)))
      (List.range (s.data.length + 1))).isSome = _
  have h0 : rxMatchAt ['^' :: (r.data ++ ['$'])] s.data 0 =
      (match atomsMatch s.data r.data 0 with
        | some e => if e = s.data.length then some e else none
        | none => none) := by
    simp only [rxMatchAt, List.findSome?_cons, List.findSome?_nil]
    have hc : atomsMatch s.data ('^' :: (r.data ++ ['$'])) 0 =
        atomsMatch s.data (r.data ++ ['$']) 0 := by
      simp [atomsMatch]
    rw [hc, atomsMatch_append_dollar]
    cases atomsMatch s.data r.data 0 with
    | none => rfl
    | some e =>
      dsimp only
      by_cases he : e = s.data.length
      · rw [if_pos he]
      · rw [if_neg he]
  have hrest : List.findSome?
      (fun p => (rxMatchAt ['^' :: (r.data ++ ['$'])] s.data p).map (fun e => (p, e)))
      ((List.range s.data.length).map Nat.succ) = none := by
    rw [List.findSome?_eq_none]
    intro p hp
    obtain ⟨q, _, hq⟩ := List.mem_map.mp hp
    have hp0 : p ≠ 0 := by omega
    simp only [rxMatchAt, List.findSome?_cons, List.findSome?_nil,
      atomsMatch_caret_pos s.data _ p hp0]
    rfl
  rw [List.range_succ_eq_map, List.findSome?_cons, h0, hrest]
  cases hm : atomsMatch s.data r.data 0 with
  | none => simp [wholeTokenMatch, hm]
  | some e =>
    by_cases he : e = s.data.length
    · have he2 : e = s.length := he
      simp [wholeTokenMatch, hm, he, he2]
    · have he2 : ¬ e = s.length := he
      simp [wholeTokenMatch, hm, he, he2]


/-! ### C6: replacing a terminal source by a test-equivalent one

To compare the parses of a grammar holding `^r$` with those of the same
grammar holding `^(^r$)$`, the machine is related to itself under a renaming
`f` of terminal sources.  The renaming must preserve `test` everywhere and
preserve the source-equality and string-coercion comparisons on the elements
actually occurring in the grammar. -/

/-- Rename the source of a terminal entry. -/
def mapElem (f : String → String) : RElem → RElem
  | .nt n => .nt n
  | .re src => .re (f src)

/-- Rename the terminals of a state's rhs. -/
def mapState (f : String → String) (st : EState) : EState :=
  { st with rhs := st.rhs.map (mapElem f) }

/-- Rename the terminals of a bucket. -/
def mapBucket (f : String → String) : List EState → List EState :=
  List.map (mapState f)

/-- Rename the terminals of a grid. -/
def mapGrid (f : String → String) : List (List EState) → List (List EState) :=
  List.map (mapBucket f)

/-- Rename the terminals of a machine. -/
def mapMachine (f : String → String) (m : Machine) : Machine :=
  { m with grid := mapGrid f m.grid }

/-- Rename the terminals of a rule table. -/
def mapRules (f : String → String) : Rules → Rules :=
  List.map (fun p => (p.1, p.2.map (List.map (mapElem f))))

/-- Rename the terminals of a grammar. -/
def mapGrammar (f : String → String) (g : Grammar) : Grammar :=
  { g with rules := mapRules f g.rules }

/-- Rename the terminals of a step outcome. -/
def mapStepOut (f : String → String) : StepOut → StepOut
  | .done grid => .done (mapGrid f grid)
  | .cont m => .cont (mapMachine f m)
  | .err e => .err e

/-- Rename the terminals of a run outcome. -/
def mapRunRes (f : String → String) : RunRes → RunRes
  | .finished grid => .finished (mapGrid f grid)
  | .failed e => .failed e
  | .nofuel => .nofuel

/-- All entries of a rhs satisfy `P`. -/
def ElemsOK (P : RElem → Prop) (rhs : List RElem) : Prop := ∀ e ∈ rhs, P e

/-- A state's rhs entries satisfy `P` and its lhs satisfies `Q`. -/
def StateOK (P : RElem → Prop) (Q : String → Prop) (st : EState) : Prop :=
  ElemsOK P st.rhs ∧ Q st.lhs

/-- All states of a bucket are `StateOK`. -/
def BucketOK (P : RElem → Prop) (Q : String → Prop) (b : List EState) : Prop :=
  ∀ st ∈ b, StateOK P Q st

/-- All buckets of a grid are `BucketOK`. -/
def GridOK (P : RElem → Prop) (Q : String → Prop) (grid : List (List EState)) : Prop :=
  ∀ b ∈ grid, BucketOK P Q b

/-- An element of the grammar: the start nonterminal or an entry of some
production. -/
def GElem (g : Grammar) (e : RElem) : Prop :=
  e = .nt g.START ∨ ∃ x rhss rhs, rulesLookup g.rules x = some rhss ∧ rhs ∈ rhss ∧ e ∈ rhs

/-- Pointwise-equal predicates have equal `all`. -/
theorem all_congr_mem {α : Type} (l : List α) (p q : α → Bool) (h : ∀ x ∈ l, p x = q x) :
    l.all p = l.all q := by
  induction l with
  | nil => rfl
  | cons x xs ih =>
    simp only [List.all_cons]
    rw [h x (List.mem_cons_self x xs), ih (fun y hy => h y (List.mem_cons_of_mem x hy))]

/-- Pointwise-equal predicates have equal `any`. -/
theorem any_congr_mem {α : Type} (l : List α) (p q : α → Bool) (h : ∀ x ∈ l, p x = q x) :
    l.any p = l.any q := by
  induction l with
  | nil => rfl
  | cons x xs ih =>
    simp only [List.any_cons]
    rw [h x (List.mem_cons_self x xs), ih (fun y hy => h y (List.mem_cons_of_mem x hy))]

/-- `getNext` after renaming. -/
theorem getNext_mapState (f : String → String) (st : EState) :
    getNext (mapState f st) = (getNext st).map (mapElem f) := by
  simp [getNext, mapState, List.get?_map]

/-- The completer's child construction ignores the rhs. -/
theorem childTree_mapState (opts : Options) (f : String → String) (st : EState) :
    childTree opts (mapState f st) = childTree opts st := by
  cases st
  rfl

/-- The loose `getNext( s ) == state.lhs` comparison is stable under the
renaming as long as the coercion comparisons are preserved. -/
theorem nextMatchesLhs_mapped (f : String → String) (next : Option RElem) (lhs : String)
    (h : ∀ src, next = some (.re src) →
      ((lhs == "/" ++ f src ++ "/") = (lhs == "/" ++ src ++ "/"))) :
    nextMatchesLhs (next.map (mapElem f)) lhs = nextMatchesLhs next lhs := by
  cases next with
  | none => rfl
  | some e =>
    cases e with
    | nt n => rfl
    | re src => exact h src rfl

/-- `equalArrays` is stable under the renaming on element-good arrays. -/
theorem equalArrays_map (f : String → String) (a b : List RElem)
    (h : ∀ e1 ∈ a, ∀ e2 ∈ b, relemEq (mapElem f e1) (mapElem f e2) = relemEq e1 e2) :
    equalArrays (a.map (mapElem f)) (b.map (mapElem f)) = equalArrays a b := by
  simp only [equalArrays, List.length_map, List.zip_map, List.all_map]
  congr 1
  apply all_congr_mem
  intro p hp
  obtain ⟨h1, h2⟩ := List.of_mem_zip hp
  exact h p.1 h1 p.2 h2

/-- `predFound` is stable under the renaming. -/
theorem predFound_map (f : String → String) (b : List EState) (x : String) (rhs : List RElem)
    (P : RElem → Prop) (Q : String → Prop)
    (Heq : ∀ e1 e2, P e1 → P e2 → relemEq (mapElem f e1) (mapElem f e2) = relemEq e1 e2)
    (hb : BucketOK P Q b) (hr : ElemsOK P rhs) :
    predFound (mapBucket f b) x (rhs.map (mapElem f)) = predFound b x rhs := by
  unfold predFound mapBucket
  rw [List.any_map]
  apply any_congr_mem
  intro st hst
  show ((mapState f st).lhs == x && equalArrays (mapState f st).rhs (rhs.map (mapElem f))
      && (mapState f st).pos == 0)
    = (st.lhs == x && equalArrays st.rhs rhs && st.pos == 0)
  have h1 : (mapState f st).lhs = st.lhs := rfl
  have h2 : (mapState f st).pos = st.pos := rfl
  have h3 : (mapState f st).rhs = st.rhs.map (mapElem f) := rfl
  rw [h1, h2, h3, equalArrays_map f st.rhs rhs
    (fun e1 he1 e2 he2 => Heq e1 e2 ((hb st hst).1 e1 he1) (hr e2 he2))]

/-- The fresh predictor state commutes with the renaming. -/
theorem freshState_map (f : String → String) (x : String) (rhs : List RElem) (i : Nat) :
    freshState x (rhs.map (mapElem f)) i = mapState f (freshState x rhs i) := rfl

/-- The predictor fold commutes with the renaming. -/
theorem predictInto_map (f : String → String) (x : String) (i : Nat)
    (P : RElem → Prop) (Q : String → Prop)
    (Heq : ∀ e1 e2, P e1 → P e2 → relemEq (mapElem f e1) (mapElem f e2) = relemEq e1 e2)
    (HPQ : ∀ n, P (.nt n) → Q n) :
    ∀ (rhss : List (List RElem)) (b : List EState), BucketOK P Q b →
      (∀ rhs ∈ rhss, ElemsOK P rhs) → (Q x) →
      predictInto (mapBucket f b) x i (rhss.map (List.map (mapElem f))) =
        mapBucket f (predictInto b x i rhss) := by
  intro rhss
  induction rhss with
  | nil => intro b _ _ _; rfl
  | cons rhs rest ih =>
    intro b hb hr hx
    rw [List.map_cons, predictInto_cons, predictInto_cons]
    rw [predFound_map f b x rhs P Q Heq hb (hr rhs (List.mem_cons_self _ _))]
    by_cases hf : predFound b x rhs = true
    · rw [if_pos hf, if_pos hf]
      exact ih b hb (fun r hrr => hr r (List.mem_cons_of_mem _ hrr)) hx
    · rw [if_neg hf, if_neg hf]
      rw [freshState_map]
      have hb2 : BucketOK P Q (b ++ [freshState x rhs i]) := by
        intro st hst
        rcases List.mem_append.mp hst with h1 | h1
        · exact hb st h1
        · rw [List.mem_singleton.mp h1]
          exact ⟨hr rhs (List.mem_cons_self _ _), hx⟩
      have : mapBucket f (b ++ [freshState x rhs i]) =
          mapBucket f b ++ [mapState f (freshState x rhs i)] := by
        simp [mapBucket]
      rw [← this]
      exact ih (b ++ [freshState x rhs i]) hb2
        (fun r hrr => hr r (List.mem_cons_of_mem _ hrr)) hx

/-- Rule lookup commutes with the renaming. -/
theorem rulesLookup_map (f : String → String) :
    ∀ (rules : Rules) (x : String),
      rulesLookup (mapRules f rules) x = (rulesLookup rules x).map (List.map (List.map (mapElem f))) := by
  intro rules
  induction rules with
  | nil => intro x; rfl
  | cons p rest ih =>
    intro x
    obtain ⟨c, rs⟩ := p
    show rulesLookup ((c, rs.map (List.map (mapElem f))) :: mapRules f rest) x = _
    by_cases hc : c = x
    · simp [rulesLookup, hc]
    · simp only [rulesLookup, hc, if_false]
      exact ih x

/-- Bucket read commutes with the renaming. -/
theorem getBucket_mapGrid (f : String → String) (grid : List (List EState)) (k : Nat) :
    getBucket (mapGrid f grid) k = mapBucket f (getBucket grid k) := by
  unfold getBucket mapGrid
  rw [List.get?_map]
  cases grid.get? k with
  | none => rfl
  | some b => rfl

/-- Bucket write commutes with the renaming. -/
theorem setBucket_mapGrid (f : String → String) (grid : List (List EState)) (k : Nat)
    (b : List EState) :
    setBucket (mapGrid f grid) k (mapBucket f b) = mapGrid f (setBucket grid k b) := by
  unfold setBucket mapGrid
  rw [List.map_set]

/-- The completer's appends commute with the renaming. -/
theorem completions_map (f : String → String) (opts : Options) (origin : List EState)
    (st : EState) (P : RElem → Prop) (Q : String → Prop)
    (Hlhs : ∀ lhs src, Q lhs → P (.re src) →
      ((lhs == "/" ++ f src ++ "/") = (lhs == "/" ++ src ++ "/")))
    (ho : BucketOK P Q origin) (hstQ : Q st.lhs) :
    completions opts (mapBucket f origin) (mapState f st) =
      mapBucket f (completions opts origin st) := by
  unfold completions mapBucket
  rw [List.filterMap_map, List.map_filterMap]
  apply List.filterMap_congr
  intro s hs
  have hcond : nextMatchesLhs (getNext (mapState f s)) (mapState f st).lhs =
      nextMatchesLhs (getNext s) st.lhs := by
    have h1 : (mapState f st).lhs = st.lhs := rfl
    rw [h1, getNext_mapState]
    apply nextMatchesLhs_mapped
    intro src hsrc
    have hmem : RElem.re src ∈ s.rhs := by
      have := List.get?_mem hsrc
      exact this
    exact Hlhs st.lhs src hstQ ((ho s hs).1 _ hmem)
  show (if nextMatchesLhs (getNext (mapState f s)) (mapState f st).lhs = true then _ else none) = _
  rw [hcond]
  by_cases hc : nextMatchesLhs (getNext s) st.lhs = true
  · rw [if_pos hc, if_pos hc, Option.map_some']
    rw [show childTree opts (mapState f st) = childTree opts st from childTree_mapState opts f st]
    rfl
  · rw [if_neg hc, if_neg hc]
    rfl

/-- Candidate extraction ignores the rhs renaming. -/
theorem candidateOf_mapState (opts : Options) (f : String → String) (st : EState) :
    candidateOf opts (mapState f st) = candidateOf opts st := by
  unfold candidateOf
  have h1 : (mapState f st).lhs = st.lhs := rfl
  have h2 : (mapState f st).got = st.got := rfl
  have h3 : (getNext (mapState f st)).isNone = (getNext st).isNone := by
    rw [getNext_mapState]
    cases getNext st <;> rfl
  rw [h1, h2, h3]

/-- Candidate lists ignore the renaming. -/
theorem candidates_mapBucket (opts : Options) (f : String → String) (b : List EState) :
    candidates opts (mapBucket f b) = candidates opts b := by
  unfold candidates mapBucket
  rw [List.filterMap_map]
  apply List.filterMap_congr
  intro st _
  exact candidateOf_mapState opts f st

/-- A bucket read from a good grid is good. -/
theorem GridOK_getBucket (P : RElem → Prop) (Q : String → Prop) (grid : List (List EState))
    (k : Nat) (hg : GridOK P Q grid) : BucketOK P Q (getBucket grid k) := by
  rcases getBucket_mem_or_nil grid k with h | h
  · exact hg _ h
  · rw [h]
    intro st hst
    exact absurd hst (List.not_mem_nil st)

/-- Appending mapped states to a mapped bucket and writing it back is the
image of doing so unmapped. -/
theorem setBucket_append_map (f : String → String) (grid : List (List EState)) (i k : Nat)
    (apps : List EState) :
    setBucket (mapGrid f grid) i (getBucket (mapGrid f grid) k ++ mapBucket f apps) =
      mapGrid f (setBucket grid i (getBucket grid k ++ apps)) := by
  rw [getBucket_mapGrid, ← setBucket_mapGrid]
  congr 1
  simp [mapBucket]

/-- One machine step commutes with the terminal renaming, provided the
renaming preserves `test` everywhere and preserves the equality and coercion
comparisons on the grammar's elements. -/
theorem step_map (g : Grammar) (opts : Options) (input : List JVal) (f : String → String)
    (P : RElem → Prop) (Q : String → Prop)
    (Htest : ∀ src v, rxTest (f src) v = rxTest src v)
    (Heq : ∀ e1 e2, P e1 → P e2 → relemEq (mapElem f e1) (mapElem f e2) = relemEq e1 e2)
    (Hlhs : ∀ lhs src, Q lhs → P (.re src) →
      ((lhs == "/" ++ f src ++ "/") = (lhs == "/" ++ src ++ "/")))
    (Hrules : ∀ x rhss, rulesLookup g.rules x = some rhss → ∀ rhs ∈ rhss, ElemsOK P rhs)
    (HPQ : ∀ n, P (.nt n) → Q n)
    (m : Machine) (hM : GridOK P Q m.grid) :
    step (mapGrammar f g) opts input (mapMachine f m) = mapStepOut f (step g opts input m) := by
  have hmg : (mapMachine f m).grid = mapGrid f m.grid := rfl
  have him : (mapMachine f m).i = m.i := rfl
  have hjm : (mapMachine f m).j = m.j := rfl
  have hcntm : (mapMachine f m).cnt = m.cnt := rfl
  have hleng : (mapGrid f m.grid).length = m.grid.length := by simp [mapGrid]
  by_cases hgl : m.i ≥ m.grid.length
  · have hl : step g opts input m = .done m.grid := by
      unfold step
      rw [if_pos hgl]
    have hr : step (mapGrammar f g) opts input (mapMachine f m) = .done (mapGrid f m.grid) := by
      unfold step
      rw [if_pos (show (mapMachine f m).i ≥ (mapMachine f m).grid.length from by
        rw [hmg, him, hleng]; exact hgl)]
      rw [hmg]
    rw [hl, hr]
    rfl
  · by_cases hj : m.j < (getBucket m.grid m.i).length
    · obtain ⟨v, hv⟩ : ∃ v, (getBucket m.grid m.i).get? m.j = some v := by
        cases hx : (getBucket m.grid m.i).get? m.j with
        | none =>
          have := List.get?_eq_none.mp hx
          omega
        | some v => exact ⟨v, rfl⟩
      have hAt : atEntry m v := ⟨by omega, hv⟩
      have hv2 : (getBucket (mapMachine f m).grid (mapMachine f m).i).get? (mapMachine f m).j =
          some (mapState f v) := by
        rw [hmg, him, hjm, getBucket_mapGrid]
        unfold mapBucket
        rw [List.get?_map, hv]
        rfl
      have hAt2 : atEntry (mapMachine f m) (mapState f v) := by
        refine ⟨?_, hv2⟩
        rw [hmg, him, hleng]
        omega
      have hvmem : v ∈ getBucket m.grid m.i := List.get?_mem hv
      have hMv : StateOK P Q v := GridOK_getBucket P Q m.grid m.i hM v hvmem
      cases hnext : getNext v with
      | none =>
        have hnext2 : getNext (mapState f v) = none := by
          rw [getNext_mapState, hnext]
          rfl
        have hl := step_completer_case g opts input m v hAt hnext
        have hr := step_completer_case (mapGrammar f g) opts input (mapMachine f m)
          (mapState f v) hAt2 hnext2
        have hcm : completions opts (getBucket (mapMachine f m).grid (mapState f v).ori)
            (mapState f v) = mapBucket f (completions opts (getBucket m.grid v.ori) v) := by
          rw [hmg, show (mapState f v).ori = v.ori from rfl, getBucket_mapGrid]
          exact completions_map f opts (getBucket m.grid v.ori) v P Q Hlhs
            (GridOK_getBucket P Q m.grid v.ori hM) hMv.2
        have hlen2 : (mapBucket f (completions opts (getBucket m.grid v.ori) v)).length =
            (completions opts (getBucket m.grid v.ori) v).length := by
          simp [mapBucket]
        rw [hl, hr, hcm, hlen2, him, hjm, hcntm, hmg, setBucket_append_map]
        by_cases hc : opts.maxIterations > 0
            ∧ 0 < (completions opts (getBucket m.grid v.ori) v).length
            ∧ ((m.cnt + ((completions opts (getBucket m.grid v.ori) v).length - 1) : Nat) : Int) >
              opts.maxIterations
        · rw [if_pos hc, if_pos hc]
          rfl
        · rw [if_neg hc, if_neg hc]
          rfl
      | some e =>
        have hnext2 : getNext (mapState f v) = some (mapElem f e) := by
          rw [getNext_mapState, hnext]
          rfl
        by_cases hil : m.i ≥ input.length
        · have hl := step_skip_case g opts input m v e hAt hnext hil
          have hr := step_skip_case (mapGrammar f g) opts input (mapMachine f m)
            (mapState f v) (mapElem f e) hAt2 hnext2 (by rw [him]; exact hil)
          rw [hl, hr]
          rfl
        · cases e with
          | re src =>
            have hl := step_scanner_case g opts input m v src hAt hnext (not_le.mp hil)
            have hr := step_scanner_case (mapGrammar f g) opts input (mapMachine f m)
              (mapState f v) (f src) hAt2 hnext2 (by rw [him]; exact not_le.mp hil)
            rw [hl, hr, him, hjm, hcntm, hmg]
            rw [Htest src (toJSString (input.getD m.i JVal.vundef))]
            by_cases ht : rxTest src (toJSString (input.getD m.i JVal.vundef)) = true
            · rw [if_pos ht, if_pos ht]
              have hsing : ([{ lhs := (mapState f v).lhs, rhs := (mapState f v).rhs,
                               pos := (mapState f v).pos + 1, ori := (mapState f v).ori,
                               got := (mapState f v).got ++ [input.getD m.i JVal.vundef] }] :
                             List EState) =
                  mapBucket f [{ lhs := v.lhs, rhs := v.rhs, pos := v.pos + 1, ori := v.ori,
                                 got := v.got ++ [input.getD m.i JVal.vundef] }] := rfl
              rw [hsing, setBucket_append_map]
              rfl
            · rw [if_neg ht, if_neg ht]
              rfl
          | nt x =>
            cases hrl : rulesLookup g.rules x with
            | none =>
              have hrl2 : rulesLookup (mapGrammar f g).rules x = none := by
                show rulesLookup (mapRules f g.rules) x = none
                rw [rulesLookup_map, hrl]
                rfl
              have hl := step_unknown_nt_case g opts input m v x hAt hnext
                (not_le.mp hil) hrl
              have hr := step_unknown_nt_case (mapGrammar f g) opts input (mapMachine f m)
                (mapState f v) x hAt2 hnext2 (by rw [him]; exact not_le.mp hil) hrl2
              rw [hl, hr]
              rfl
            | some rhss =>
              have hrl2 : rulesLookup (mapGrammar f g).rules x =
                  some (rhss.map (List.map (mapElem f))) := by
                show rulesLookup (mapRules f g.rules) x = _
                rw [rulesLookup_map, hrl]
                rfl
              have hl := step_predictor_case g opts input m v x rhss hAt hnext
                (not_le.mp hil) hrl
              have hr := step_predictor_case (mapGrammar f g) opts input (mapMachine f m)
                (mapState f v) x (rhss.map (List.map (mapElem f))) hAt2 hnext2
                (by rw [him]; exact not_le.mp hil) hrl2
              have hQx : Q x := by
                apply HPQ
                apply hMv.1
                exact List.get?_mem hnext
              have hpi : predictInto (getBucket (mapGrid f m.grid) m.i) x m.i
                  (rhss.map (List.map (mapElem f))) =
                  mapBucket f (predictInto (getBucket m.grid m.i) x m.i rhss) := by
                rw [getBucket_mapGrid]
                exact predictInto_map f x m.i P Q Heq HPQ rhss (getBucket m.grid m.i)
                  (GridOK_getBucket P Q m.grid m.i hM) (Hrules x rhss hrl) hQx
              rw [hl, hr, him, hjm, hcntm, hmg, hpi, setBucket_mapGrid]
              by_cases hic : iterCheck opts.maxIterations m.cnt = true
              · rw [if_pos hic, if_pos hic]
                rfl
              · rw [if_neg hic, if_neg hic]
                rfl
    · have hl := step_advance_case g opts input m hgl hj
      have hr := step_advance_case (mapGrammar f g) opts input (mapMachine f m)
        (by rw [him, hmg, hleng]; exact hgl)
        (by
          rw [him, hjm, hmg, getBucket_mapGrid]
          simpa [mapBucket] using hj)
      rw [hl, hr]
      rfl
/-- Writing a good bucket into a good grid keeps the grid good. -/
theorem GridOK_setBucket (P : RElem → Prop) (Q : String → Prop) (grid : List (List EState))
    (k : Nat) (b : List EState) (hg : GridOK P Q grid) (hb : BucketOK P Q b) :
    GridOK P Q (setBucket grid k b) := by
  intro b2 h
  rcases mem_setBucket grid k b b2 h with h1 | h1
  · exact h1 ▸ hb
  · exact hg b2 h1

/-- Appending good states to a good bucket keeps it good. -/
theorem BucketOK_append (P : RElem → Prop) (Q : String → Prop) (b l : List EState)
    (hb : BucketOK P Q b) (hl : ∀ s ∈ l, StateOK P Q s) : BucketOK P Q (b ++ l) := by
  intro st hst
  rcases List.mem_append.mp hst with h | h
  · exact hb st h
  · exact hl st h

/-- Completer appends copy the rhs and lhs of origin-bucket states, so they
are good whenever the origin bucket is. -/
theorem completions_StateOK (P : RElem → Prop) (Q : String → Prop) (opts : Options)
    (origin : List EState) (st : EState) (ho : BucketOK P Q origin) :
    ∀ s2 ∈ completions opts origin st, StateOK P Q s2 := by
  intro s2 h
  simp only [completions, List.mem_filterMap] at h
  obtain ⟨s, hs, hsome⟩ := h
  by_cases hc : nextMatchesLhs (getNext s) st.lhs = true
  · rw [if_pos hc] at hsome
    rw [← Option.some.inj hsome]
    exact ho s hs
  · rw [if_neg hc] at hsome
    exact Option.noConfusion hsome

/-- The predictor appends only states drawn from the looked-up productions,
with the predicted category as lhs. -/
theorem predictInto_BucketOK (P : RElem → Prop) (Q : String → Prop) (b : List EState)
    (x : String) (i : Nat) (rhss : List (List RElem)) (hb : BucketOK P Q b)
    (hr : ∀ rhs ∈ rhss, ElemsOK P rhs) (hx : Q x) : BucketOK P Q (predictInto b x i rhss) := by
  obtain ⟨t, h1, h2, _⟩ := predictInto_decomp x i rhss b
  rw [h1]
  refine BucketOK_append P Q b t hb ?_
  intro s hst
  obtain ⟨_, p2, _, _, p5, _⟩ := h2 s hst
  exact ⟨hr s.rhs p5, p2 ▸ hx⟩

/-- One continuing machine step preserves goodness of the grid, provided the
grammar's productions are made of good elements and every predicted category
name is good. -/
theorem step_preserves_GridOK (g : Grammar) (opts : Options) (input : List JVal)
    (P : RElem → Prop) (Q : String → Prop)
    (Hrules : ∀ x rhss, rulesLookup g.rules x = some rhss → ∀ rhs ∈ rhss, ElemsOK P rhs)
    (HPQ : ∀ n, P (.nt n) → Q n)
    (m m2 : Machine) (hstep : step g opts input m = .cont m2) (hg : GridOK P Q m.grid) :
    GridOK P Q m2.grid := by
  by_cases hgl : m.i ≥ m.grid.length
  · unfold step at hstep
    rw [if_pos hgl] at hstep
    exact StepOut.noConfusion hstep
  · by_cases hj : m.j < (getBucket m.grid m.i).length
    · obtain ⟨v, hv⟩ : ∃ v, (getBucket m.grid m.i).get? m.j = some v := by
        cases hx : (getBucket m.grid m.i).get? m.j with
        | none =>
          have := List.get?_eq_none.mp hx
          omega
        | some v => exact ⟨v, rfl⟩
      have hAt : atEntry m v := ⟨by omega, hv⟩
      have hvmem : v ∈ getBucket m.grid m.i := List.get?_mem hv
      have hvOK : StateOK P Q v := GridOK_getBucket P Q m.grid m.i hg v hvmem
      cases hnext : getNext v with
      | none =>
        rw [step_completer_case g opts input m v hAt hnext] at hstep
        by_cases hlim : opts.maxIterations > 0
            ∧ 0 < (completions opts (getBucket m.grid v.ori) v).length
            ∧ ((m.cnt + ((completions opts (getBucket m.grid v.ori) v).length - 1) : Nat) : Int) >
              opts.maxIterations
        · rw [if_pos hlim] at hstep
          exact StepOut.noConfusion hstep
        · rw [if_neg hlim] at hstep
          rw [← StepOut.cont.inj hstep]
          refine GridOK_setBucket P Q _ _ _ hg ?_
          refine BucketOK_append P Q _ _ (GridOK_getBucket P Q _ _ hg) ?_
          exact completions_StateOK P Q opts _ v (GridOK_getBucket P Q _ _ hg)
      | some next =>
        by_cases hil : m.i ≥ input.length
        · rw [step_skip_case g opts input m v next hAt hnext hil] at hstep
          rw [← StepOut.cont.inj hstep]
          exact hg
        · cases next with
          | re src =>
            rw [step_scanner_case g opts input m v src hAt hnext (not_le.mp hil)] at hstep
            rw [← StepOut.cont.inj hstep]
            by_cases ht : rxTest src (toJSString (input.getD m.i JVal.vundef)) = true
            · rw [if_pos ht]
              refine GridOK_setBucket P Q _ _ _ hg ?_
              refine BucketOK_append P Q _ _ (GridOK_getBucket P Q _ _ hg) ?_
              intro s2 hs2
              rw [List.mem_singleton.mp hs2]
              exact ⟨hvOK.1, hvOK.2⟩
            · rw [if_neg ht]
              exact hg
          | nt x =>
            cases hrl : rulesLookup g.rules x with
            | none =>
              rw [step_unknown_nt_case g opts input m v x hAt hnext (not_le.mp hil) hrl] at hstep
              exact StepOut.noConfusion hstep
            | some rhss =>
              rw [step_predictor_case g opts input m v x rhss hAt hnext (not_le.mp hil) hrl]
                at hstep
              by_cases hic : iterCheck opts.maxIterations m.cnt = true
              · rw [if_pos hic] at hstep
                exact StepOut.noConfusion hstep
              · rw [if_neg hic] at hstep
                rw [← StepOut.cont.inj hstep]
                refine GridOK_setBucket P Q _ _ _ hg ?_
                refine predictInto_BucketOK P Q _ x m.i rhss (GridOK_getBucket P Q _ _ hg)
                  (Hrules x rhss hrl) ?_
                have hxel : RElem.nt x ∈ v.rhs := by
                  unfold getNext at hnext
                  exact List.get?_mem hnext
                exact HPQ x (hvOK.1 _ hxel)
    · rw [step_advance_case g opts input m hgl hj] at hstep
      rw [← StepOut.cont.inj hstep]
      exact hg

/-- The whole fueled machine run commutes with the terminal renaming. -/
theorem run_map (g : Grammar) (opts : Options) (input : List JVal) (f : String → String)
    (P : RElem → Prop) (Q : String → Prop)
    (Htest : ∀ src v, rxTest (f src) v = rxTest src v)
    (Heq : ∀ e1 e2, P e1 → P e2 → relemEq (mapElem f e1) (mapElem f e2) = relemEq e1 e2)
    (Hlhs : ∀ lhs src, Q lhs → P (.re src) →
      ((lhs == "/" ++ f src ++ "/") = (lhs == "/" ++ src ++ "/")))
    (Hrules : ∀ x rhss, rulesLookup g.rules x = some rhss → ∀ rhs ∈ rhss, ElemsOK P rhs)
    (HPQ : ∀ n, P (.nt n) → Q n) :
    ∀ (fuel : Nat) (m : Machine), GridOK P Q m.grid →
      run (mapGrammar f g) opts input fuel (mapMachine f m) =
        mapRunRes f (run g opts input fuel m) := by
  intro fuel
  induction fuel with
  | zero =>
    intro m _
    rfl
  | succ k ih =>
    intro m hm
    show (match step (mapGrammar f g) opts input (mapMachine f m) with
      | .done grid => RunRes.finished grid
      | .err e => RunRes.failed e
      | .cont m2 => run (mapGrammar f g) opts input k m2) = _
    rw [step_map g opts input f P Q Htest Heq Hlhs Hrules HPQ m hm]
    cases hs : step g opts input m with
    | done grid =>
      have hrun : run g opts input (k + 1) m = .finished grid := by
        show (match step g opts input m with
          | .done grid => RunRes.finished grid
          | .err e => RunRes.failed e
          | .cont m2 => run g opts input k m2) = _
        rw [hs]
      rw [hrun]
      rfl
    | err e =>
      have hrun : run g opts input (k + 1) m = .failed e := by
        show (match step g opts input m with
          | .done grid => RunRes.finished grid
          | .err e => RunRes.failed e
          | .cont m2 => run g opts input k m2) = _
        rw [hs]
      rw [hrun]
      rfl
    | cont m2 =>
      show run (mapGrammar f g) opts input k (mapMachine f m2) =
        mapRunRes f (run g opts input (k + 1) m)
      have hrun : run g opts input (k + 1) m = run g opts input k m2 := by
        show (match step g opts input m with
          | .done grid => RunRes.finished grid
          | .err e => RunRes.failed e
          | .cont m2 => run g opts input k m2) = _
        rw [hs]
      rw [hrun]
      exact ih m2 (step_preserves_GridOK g opts input P Q Hrules HPQ m m2 hs hm)

/-- The initial machine of the renamed grammar is the renamed initial
machine: the seed state holds only the (unrenamed) start category. -/
theorem initMachine_map (f : String → String) (g : Grammar) (input : List JVal) :
    initMachine (mapGrammar f g) input = mapMachine f (initMachine g input) := by
  unfold initMachine mapMachine
  show _ = Machine.mk (mapGrid f _) 0 0 0
  unfold mapGrid
  rw [List.map_cons, List.map_replicate]
  rfl

/-- The initial grid is good: the seed state mentions only the start
category, and every other bucket is empty. -/
theorem initMachine_GridOK (P : RElem → Prop) (Q : String → Prop) (g : Grammar)
    (input : List JVal) (hstart : P (.nt g.START)) (hempty : Q "") :
    GridOK P Q (initMachine g input).grid := by
  intro b hb
  rcases List.mem_cons.mp hb with h | h
  · intro st hst
    rw [h] at hst
    rw [List.mem_singleton.mp hst]
    refine ⟨?_, hempty⟩
    intro e he
    rw [List.mem_singleton.mp he]
    exact hstart
  · rw [List.eq_of_mem_replicate h]
    intro st hst
    exact absurd hst (List.not_mem_nil st)

/-- The fueled core of `parse` returns identical results, errors and fuel
exhaustion on the renamed grammar: the result trees mention only category
names and token values, never the terminals' sources. -/
theorem parseTokens_map (g : Grammar) (f : String → String)
    (P : RElem → Prop) (Q : String → Prop)
    (Htest : ∀ src v, rxTest (f src) v = rxTest src v)
    (Heq : ∀ e1 e2, P e1 → P e2 → relemEq (mapElem f e1) (mapElem f e2) = relemEq e1 e2)
    (Hlhs : ∀ lhs src, Q lhs → P (.re src) →
      ((lhs == "/" ++ f src ++ "/") = (lhs == "/" ++ src ++ "/")))
    (Hrules : ∀ x rhss, rulesLookup g.rules x = some rhss → ∀ rhs ∈ rhss, ElemsOK P rhs)
    (HPQ : ∀ n, P (.nt n) → Q n)
    (hstart : P (.nt g.START)) (hempty : Q "")
    (opts : Options) (input : List JVal) (fuel : Nat) :
    parseTokens (mapGrammar f g) opts input fuel = parseTokens g opts input fuel := by
  unfold parseTokens
  rw [initMachine_map, run_map g opts input f P Q Htest Heq Hlhs Hrules HPQ fuel
    (initMachine g input) (initMachine_GridOK P Q g input hstart hempty)]
  cases hr : run g opts input fuel (initMachine g input) with
  | finished grid =>
    show POut.ok (dedupComp opts.comparator
        (candidates opts (getBucket (mapGrid f grid) ((mapGrid f grid).length - 1)))) = _
    have hl : (mapGrid f grid).length = grid.length := by
      unfold mapGrid
      exact List.length_map _ _
    rw [hl, getBucket_mapGrid, candidates_mapBucket]
  | failed e =>
    rfl
  | nofuel =>
    rfl

/-- Is this element the terminal with source `s`? -/
def elemIsRe (s : String) : RElem → Bool
  | .re t => t == s
  | .nt _ => false

/-- Is this element the category named `x`? -/
def elemIsNt (x : String) : RElem → Bool
  | .nt n => n == x
  | .re _ => false

/-- No production of the rule table contains the terminal with source `s`. -/
def rulesReFree (rules : Rules) (s : String) : Bool :=
  match rules with
  | [] => true
  | (_, rs) :: rest =>
    rs.all (fun rhs => rhs.all (fun e => !(elemIsRe s e))) && rulesReFree rest s

/-- No production of the rule table contains the category named `x`. -/
def rulesNtFree (rules : Rules) (x : String) : Bool :=
  match rules with
  | [] => true
  | (_, rs) :: rest =>
    rs.all (fun rhs => rhs.all (fun e => !(elemIsNt x e))) && rulesNtFree rest x

/-- Pushing onto the rule table grows the named category's production list
by the new sequence and leaves every other category untouched. -/
theorem rulesLookup_insert (cat : String) (seq : List RElem) :
    ∀ (rules : Rules) (x : String),
      rulesLookup (rulesInsert rules cat seq) x =
        if x = cat then some ((rulesLookup rules cat).getD [] ++ [seq])
        else rulesLookup rules x := by
  intro rules
  induction rules with
  | nil =>
    intro x
    show (if cat = x then some [seq] else none) = _
    by_cases h : x = cat
    · rw [if_pos h.symm, if_pos h]
      rfl
    · rw [if_neg (fun hc => h hc.symm), if_neg h]
      rfl
  | cons p rest ih =>
    intro x
    obtain ⟨c, rs⟩ := p
    by_cases hc : c = cat
    · show rulesLookup (if c = cat then (c, rs ++ [seq]) :: rest
          else (c, rs) :: rulesInsert rest cat seq) x = _
      rw [if_pos hc]
      show (if c = x then some (rs ++ [seq]) else rulesLookup rest x) = _
      by_cases hx : x = cat
      · rw [if_pos (hc.trans hx.symm), if_pos hx]
        have hl : rulesLookup ((c, rs) :: rest) cat = some rs := by
          show (if c = cat then some rs else _) = _
          rw [if_pos hc]
        rw [hl]
        rfl
      · rw [if_neg (fun h => hx ((h.symm.trans hc) : x = cat)), if_neg hx]
        show _ = (if c = x then some rs else rulesLookup rest x)
        rw [if_neg (fun h => hx ((h.symm.trans hc) : x = cat))]
    · show rulesLookup (if c = cat then (c, rs ++ [seq]) :: rest
          else (c, rs) :: rulesInsert rest cat seq) x = _
      rw [if_neg hc]
      show (if c = x then some rs else rulesLookup (rulesInsert rest cat seq) x) = _
      by_cases hcx : c = x
      · rw [if_pos hcx, if_neg (fun h => hc (hcx.trans h)),
          show rulesLookup ((c, rs) :: rest) x = some rs from by
            show (if c = x then some rs else _) = _
            rw [if_pos hcx]]
      · rw [if_neg hcx, ih x]
        have hl : rulesLookup ((c, rs) :: rest) cat = rulesLookup rest cat := by
          show (if c = cat then some rs else _) = _
          rw [if_neg hc]
        have hl2 : rulesLookup ((c, rs) :: rest) x = rulesLookup rest x := by
          show (if c = x then some rs else _) = _
          rw [if_neg hcx]
        rw [hl, hl2]

/-- A successful lookup names an entry of the table. -/
theorem rulesLookup_mem : ∀ (rules : List (String × List (List RElem))) (x : String)
    (rhss : List (List RElem)),
    rulesLookup rules x = some rhss → (x, rhss) ∈ rules := by
  intro rules
  induction rules with
  | nil =>
    intro x rhss h
    exact Option.noConfusion h
  | cons p rest ih =>
    intro x rhss h
    obtain ⟨c, rs⟩ := p
    show (x, rhss) ∈ (c, rs) :: rest
    have hu : (if c = x then some rs else rulesLookup rest x) = some rhss := h
    by_cases hc : c = x
    · rw [if_pos hc] at hu
      rw [← hc, ← Option.some.inj hu]
      exact List.mem_cons_self _ _
    · rw [if_neg hc] at hu
      exact List.mem_cons_of_mem _ (ih x rhss hu)

/-- Unfolding `rulesReFree` along a member of the table. -/
theorem rulesReFree_spec (s : String) :
    ∀ (rules : List (String × List (List RElem))), rulesReFree rules s = true →
    ∀ p ∈ rules, ∀ rhs ∈ p.2, ∀ e ∈ rhs, elemIsRe s e = false := by
  intro rules
  induction rules with
  | nil =>
    intro _ p hp
    exact absurd hp (List.not_mem_nil p)
  | cons q rest ih =>
    intro h p hp
    obtain ⟨c, rs⟩ := q
    have hu : (rs.all (fun rhs => rhs.all (fun e => !(elemIsRe s e)))
        && rulesReFree rest s) = true := h
    rw [Bool.and_eq_true] at hu
    rcases List.mem_cons.mp hp with h1 | h1
    · intro rhs hrhs e he
      rw [h1]  at hrhs
      have h2 := List.all_eq_true.mp (List.all_eq_true.mp hu.1 rhs hrhs) e he
      simpa using h2
    · exact ih hu.2 p h1

/-- Unfolding `rulesNtFree` along a member of the table. -/
theorem rulesNtFree_spec (x : String) :
    ∀ (rules : List (String × List (List RElem))), rulesNtFree rules x = true →
    ∀ p ∈ rules, ∀ rhs ∈ p.2, ∀ e ∈ rhs, elemIsNt x e = false := by
  intro rules
  induction rules with
  | nil =>
    intro _ p hp
    exact absurd hp (List.not_mem_nil p)
  | cons q rest ih =>
    intro h p hp
    obtain ⟨c, rs⟩ := q
    have hu : (rs.all (fun rhs => rhs.all (fun e => !(elemIsNt x e)))
        && rulesNtFree rest x) = true := h
    rw [Bool.and_eq_true] at hu
    rcases List.mem_cons.mp hp with h1 | h1
    · intro rhs hrhs e he
      rw [h1] at hrhs
      have h2 := List.all_eq_true.mp (List.all_eq_true.mp hu.1 rhs hrhs) e he
      simpa using h2
    · exact ih hu.2 p h1

/-- A terminal source absent from the table is not a grammar element
(the start disjunct is impossible for a terminal). -/
theorem rulesReFree_not_GElem (g : Grammar) (s : String)
    (h : rulesReFree g.rules s = true) : ¬ GElem g (.re s) := by
  intro hG
  rcases hG with h1 | ⟨x, rhss, rhs, hl, hmem, hel⟩
  · exact RElem.noConfusion h1
  · have h2 := rulesReFree_spec s g.rules h _ (rulesLookup_mem g.rules x rhss hl) rhs hmem _ hel
    simp [elemIsRe] at h2

/-- A category name absent from the table and different from the start
symbol is not a grammar element. -/
theorem ntFree_not_GElem (g : Grammar) (bad : String)
    (h : rulesNtFree g.rules bad = true) (hs : g.START ≠ bad) : ¬ GElem g (.nt bad) := by
  intro hG
  rcases hG with h1 | ⟨x, rhss, rhs, hl, hmem, hel⟩
  · exact hs (RElem.nt.inj h1).symm
  · have h2 := rulesNtFree_spec bad g.rules h _ (rulesLookup_mem g.rules x rhss hl) rhs hmem _ hel
    simp [elemIsNt] at h2

/-- A map whose function fixes every member is the identity. -/
theorem map_id_of_mem {α : Type} (f : α → α) :
    ∀ (l : List α), (∀ x ∈ l, f x = x) → l.map f = l := by
  intro l
  induction l with
  | nil =>
    intro _
    rfl
  | cons x xs ih =>
    intro h
    rw [List.map_cons, h x (List.mem_cons_self x xs), ih (fun y hy => h y (List.mem_cons_of_mem x hy))]

/-- Renaming commutes with pushing onto the rule table. -/
theorem mapRules_insert (f : String → String) (cat : String) (seq : List RElem) :
    ∀ (rules : Rules), mapRules f (rulesInsert rules cat seq) =
      rulesInsert (mapRules f rules) cat (seq.map (mapElem f)) := by
  intro rules
  induction rules with
  | nil =>
    rfl
  | cons p rest ih =>
    obtain ⟨c, rs⟩ := p
    show mapRules f (if c = cat then (c, rs ++ [seq]) :: rest
        else (c, rs) :: rulesInsert rest cat seq) = _
    by_cases hc : c = cat
    · rw [if_pos hc]
      show (c, (rs ++ [seq]).map (List.map (mapElem f))) :: mapRules f rest = _
      show _ = rulesInsert ((c, rs.map (List.map (mapElem f))) :: mapRules f rest) cat
        (seq.map (mapElem f))
      rw [show rulesInsert ((c, rs.map (List.map (mapElem f))) :: mapRules f rest) cat
            (seq.map (mapElem f)) =
          (c, rs.map (List.map (mapElem f)) ++ [seq.map (mapElem f)]) :: mapRules f rest from by
        show (if c = cat then _ else _) = _
        rw [if_pos hc]]
      rw [List.map_append]
      rfl
    · rw [if_neg hc]
      show (c, rs.map (List.map (mapElem f))) :: mapRules f (rulesInsert rest cat seq) = _
      show _ = rulesInsert ((c, rs.map (List.map (mapElem f))) :: mapRules f rest) cat
        (seq.map (mapElem f))
      rw [show rulesInsert ((c, rs.map (List.map (mapElem f))) :: mapRules f rest) cat
            (seq.map (mapElem f)) =
          (c, rs.map (List.map (mapElem f))) ::
            rulesInsert (mapRules f rest) cat (seq.map (mapElem f)) from by
        show (if c = cat then _ else _) = _
        rw [if_neg hc]]
      rw [ih]

/-- A renaming that moves only a source absent from the table leaves the
table unchanged. -/
theorem mapRules_id (f : String → String) (s : String) (hfix : ∀ t, t ≠ s → f t = t) :
    ∀ (rules : Rules), rulesReFree rules s = true → mapRules f rules = rules := by
  intro rules
  induction rules with
  | nil =>
    intro _
    rfl
  | cons p rest ih =>
    intro h
    obtain ⟨c, rs⟩ := p
    have hu : (rs.all (fun rhs => rhs.all (fun e => !(elemIsRe s e)))
        && rulesReFree rest s) = true := h
    rw [Bool.and_eq_true] at hu
    show (c, rs.map (List.map (mapElem f))) :: mapRules f rest = (c, rs) :: rest
    rw [ih hu.2]
    have hrs : rs.map (List.map (mapElem f)) = rs := by
      apply map_id_of_mem
      intro rhs hrhs
      apply map_id_of_mem
      intro e he
      have hfree := List.all_eq_true.mp (List.all_eq_true.mp hu.1 rhs hrhs) e he
      cases e with
      | nt n =>
        rfl
      | re t =>
        show RElem.re (f t) = RElem.re t
        have hts : (t == s) = false := by simpa [elemIsRe] using hfree
        rw [hfix t (by simpa using hts)]
    rw [hrs]

/-- The renaming that sends one source string to another and fixes the
rest. -/
def swapSrc (a b : String) (s : String) : String := if s = a then b else s

/-- `swapSrc` at the moved source. -/
theorem swapSrc_eq (a b : String) : swapSrc a b a = b := if_pos rfl

/-- `swapSrc` elsewhere. -/
theorem swapSrc_ne (a b s : String) (h : s ≠ a) : swapSrc a b s = s := if_neg h

/-- The empty string is not a slash-wrapped coercion. -/
theorem empty_ne_slashes (s : String) : "" ≠ "/" ++ s ++ "/" := by
  intro h
  have h2 := congrArg String.length h
  simp only [String.length_append] at h2
  have e0 : "".length = 0 := by decide
  have e1 : "/".length = 1 := by decide
  rw [e0, e1] at h2
  omega

/-- The two anchorings differ as strings. -/
theorem wrap_ne_wrap_wrap (r : String) :
    ("^" ++ r ++ "$") ≠ ("^" ++ ("^" ++ r ++ "$") ++ "$") := by
  intro h
  have h2 := congrArg String.length h
  simp only [String.length_append] at h2
  have e1 : "^".length = 1 := by decide
  have e2 : "$".length = 1 := by decide
  rw [e1, e2] at h2
  omega

/-- Registering the terminal `r` and registering its pre-anchored form
`^r$` produce grammars on which the fueled parse core agrees, provided
neither anchored spelling `^r$` nor `^^r$$` is already a stored terminal of
the grammar, and neither the start symbol nor any stored category name is
the coerced string `/^r$/` or `/^^r$$/`. -/
theorem parseTokens_addRule_prewrapped (g : Grammar) (lhs r : String)
    (h1 : rulesReFree g.rules ("^" ++ r ++ "$") = true)
    (h2 : rulesReFree g.rules ("^" ++ ("^" ++ r ++ "$") ++ "$") = true)
    (h4 : rulesNtFree g.rules ("/" ++ ("^" ++ r ++ "$") ++ "/") = true)
    (h5 : rulesNtFree g.rules ("/" ++ ("^" ++ ("^" ++ r ++ "$") ++ "$") ++ "/") = true)
    (h6 : g.START ≠ "/" ++ ("^" ++ r ++ "$") ++ "/")
    (h7 : g.START ≠ "/" ++ ("^" ++ ("^" ++ r ++ "$") ++ "$") ++ "/")
    (opts : Options) (input : List JVal) (fuel : Nat) :
    parseTokens (g.addRule lhs [.rx ("^" ++ r ++ "$")]) opts input fuel =
      parseTokens (g.addRule lhs [.rx r]) opts input fuel := by
  have hfix : ∀ t, t ≠ "^" ++ r ++ "$" →
      swapSrc ("^" ++ r ++ "$") ("^" ++ ("^" ++ r ++ "$") ++ "$") t = t :=
    fun t ht => swapSrc_ne _ _ t ht
  have hrules_eq : mapRules (swapSrc ("^" ++ r ++ "$") ("^" ++ ("^" ++ r ++ "$") ++ "$"))
      (g.addRule lhs [.rx r]).rules = (g.addRule lhs [.rx ("^" ++ r ++ "$")]).rules := by
    show mapRules _ (rulesInsert g.rules lhs [.re ("^" ++ r ++ "$")]) =
      rulesInsert g.rules lhs [.re ("^" ++ ("^" ++ r ++ "$") ++ "$")]
    rw [mapRules_insert _ lhs _ g.rules,
      mapRules_id _ ("^" ++ r ++ "$") hfix g.rules h1]
    show rulesInsert g.rules lhs
        [.re (swapSrc ("^" ++ r ++ "$") ("^" ++ ("^" ++ r ++ "$") ++ "$") ("^" ++ r ++ "$"))] = _
    rw [swapSrc_eq]
  have hgr : mapGrammar (swapSrc ("^" ++ r ++ "$") ("^" ++ ("^" ++ r ++ "$") ++ "$"))
      (g.addRule lhs [.rx r]) = g.addRule lhs [.rx ("^" ++ r ++ "$")] := by
    show Grammar.mk g.START (mapRules _ (g.addRule lhs [.rx r]).rules) g.defaults =
      Grammar.mk g.START (g.addRule lhs [.rx ("^" ++ r ++ "$")]).rules g.defaults
    rw [hrules_eq]
  have Htest : ∀ src v,
      rxTest (swapSrc ("^" ++ r ++ "$") ("^" ++ ("^" ++ r ++ "$") ++ "$") src) v =
        rxTest src v := by
    intro src v
    by_cases h : src = "^" ++ r ++ "$"
    · rw [h, swapSrc_eq]
      exact rxTest_wrap_wrap r v
    · rw [swapSrc_ne _ _ src h]
  have Hlhs : ∀ (l src : String), (l = "" ∨ GElem g (.nt l)) →
      (GElem g (.re src) ∨ RElem.re src = RElem.re ("^" ++ r ++ "$")) →
      ((l == "/" ++ swapSrc ("^" ++ r ++ "$") ("^" ++ ("^" ++ r ++ "$") ++ "$") src ++ "/") =
        (l == "/" ++ src ++ "/")) := by
    intro l src hq _
    by_cases hs : src = "^" ++ r ++ "$"
    · rw [hs, swapSrc_eq]
      have hI : l ≠ "/" ++ ("^" ++ r ++ "$") ++ "/" := by
        intro hc
        rcases hq with hq | hq
        · exact empty_ne_slashes _ (hq ▸ hc)
        · exact ntFree_not_GElem g _ h4 h6 (hc ▸ hq)
      have hJ : l ≠ "/" ++ ("^" ++ ("^" ++ r ++ "$") ++ "$") ++ "/" := by
        intro hc
        rcases hq with hq | hq
        · exact empty_ne_slashes _ (hq ▸ hc)
        · exact ntFree_not_GElem g _ h5 h7 (hc ▸ hq)
      rw [beq_eq_false_iff_ne.mpr hJ, beq_eq_false_iff_ne.mpr hI]
    · rw [swapSrc_ne _ _ src hs]
  have Heq : ∀ e1 e2,
      (GElem g e1 ∨ e1 = RElem.re ("^" ++ r ++ "$")) →
      (GElem g e2 ∨ e2 = RElem.re ("^" ++ r ++ "$")) →
      relemEq (mapElem (swapSrc ("^" ++ r ++ "$") ("^" ++ ("^" ++ r ++ "$") ++ "$")) e1)
          (mapElem (swapSrc ("^" ++ r ++ "$") ("^" ++ ("^" ++ r ++ "$") ++ "$")) e2) =
        relemEq e1 e2 := by
    intro e1 e2 hp1 hp2
    cases e1 with
    | nt a =>
      cases e2 with
      | nt b =>
        rfl
      | re s =>
        show (a == "/" ++ swapSrc ("^" ++ r ++ "$") ("^" ++ ("^" ++ r ++ "$") ++ "$") s ++ "/") =
          (a == "/" ++ s ++ "/")
        refine Hlhs a s ?_ hp2
        rcases hp1 with hg1 | habs
        · exact Or.inr hg1
        · exact absurd habs (fun h => RElem.noConfusion h)
    | re s =>
      cases e2 with
      | nt b =>
        rfl
      | re t =>
        show (swapSrc ("^" ++ r ++ "$") ("^" ++ ("^" ++ r ++ "$") ++ "$") s ==
            swapSrc ("^" ++ r ++ "$") ("^" ++ ("^" ++ r ++ "$") ++ "$") t) = (s == t)
        by_cases hst : s = t
        · rw [hst]
          simp
        · have hft : swapSrc ("^" ++ r ++ "$") ("^" ++ ("^" ++ r ++ "$") ++ "$") s ≠
              swapSrc ("^" ++ r ++ "$") ("^" ++ ("^" ++ r ++ "$") ++ "$") t := by
            by_cases hs1 : s = "^" ++ r ++ "$"
            · by_cases ht1 : t = "^" ++ r ++ "$"
              · exact absurd (hs1.trans ht1.symm) hst
              · rw [hs1, swapSrc_eq, swapSrc_ne _ _ t ht1]
                rcases hp2 with hg2 | he2
                · intro hc
                  exact rulesReFree_not_GElem g _ h2 (hc ▸ hg2)
                · exact absurd (RElem.re.inj he2) ht1
            · by_cases ht1 : t = "^" ++ r ++ "$"
              · rw [ht1, swapSrc_eq, swapSrc_ne _ _ s hs1]
                rcases hp1 with hg1 | he1
                · intro hc
                  exact rulesReFree_not_GElem g _ h2 (hc.symm ▸ hg1)
                · exact absurd (RElem.re.inj he1) hs1
              · rw [swapSrc_ne _ _ s hs1, swapSrc_ne _ _ t ht1]
                exact hst
          rw [beq_eq_false_iff_ne.mpr hft, beq_eq_false_iff_ne.mpr hst]
  have Hrules : ∀ x rhss, rulesLookup (g.addRule lhs [.rx r]).rules x = some rhss →
      ∀ rhs ∈ rhss, ElemsOK (fun e => GElem g e ∨ e = RElem.re ("^" ++ r ++ "$")) rhs := by
    intro x rhss hl rhs hrhs e he
    have hl2 : rulesLookup (rulesInsert g.rules lhs [.re ("^" ++ r ++ "$")]) x = some rhss := hl
    rw [rulesLookup_insert lhs _ g.rules x] at hl2
    by_cases hx : x = lhs
    · rw [if_pos hx] at hl2
      rw [← Option.some.inj hl2] at hrhs
      rcases List.mem_append.mp hrhs with hm | hm
      · cases hgl : rulesLookup g.rules lhs with
        | none =>
          rw [hgl] at hm
          exact absurd hm (List.not_mem_nil rhs)
        | some old =>
          rw [hgl] at hm
          exact Or.inl (Or.inr ⟨lhs, old, rhs, hgl, hm, he⟩)
      · rw [List.mem_singleton.mp hm] at he
        rw [List.mem_singleton.mp he]
        exact Or.inr rfl
    · rw [if_neg hx] at hl2
      exact Or.inl (Or.inr ⟨x, rhss, rhs, hl2, hrhs, he⟩)
  have HPQ : ∀ n, (GElem g (RElem.nt n) ∨ RElem.nt n = RElem.re ("^" ++ r ++ "$")) →
      (n = "" ∨ GElem g (.nt n)) := by
    intro n hn
    rcases hn with hg1 | habs
    · exact Or.inr hg1
    · exact absurd habs (fun h => RElem.noConfusion h)
  have hmain := parseTokens_map (g.addRule lhs [.rx r])
    (swapSrc ("^" ++ r ++ "$") ("^" ++ ("^" ++ r ++ "$") ++ "$"))
    (fun e => GElem g e ∨ e = RElem.re ("^" ++ r ++ "$"))
    (fun l => l = "" ∨ GElem g (.nt l))
    Htest Heq Hlhs Hrules HPQ (Or.inl (Or.inl rfl)) (Or.inl rfl) opts input fuel
  rw [hgr] at hmain
  exact hmain

/-- Two grammars whose fueled parse cores agree give equal `parseImpl`
outcomes: the tokenization of a string input never consults the rules. -/
theorem parseImpl_congr (gA gB : Grammar)
    (h : ∀ opts input fuel, parseTokens gA opts input fuel = parseTokens gB opts input fuel)
    (opts : Options) (inp : PInput) (fuel : Nat) :
    parseImpl gA opts inp fuel = parseImpl gB opts inp fuel := by
  cases inp with
  | toks ts =>
    exact h opts ts fuel
  | str s =>
    unfold parseImpl
    cases ht : opts.tokenizer with
    | some T =>
      dsimp only
      cases hts : T.tokenize s with
      | none =>
        rfl
      | some ts =>
        exact h opts ts fuel
    | none =>
      exact h opts _ fuel

/-- The witness grammars of the counterexample: a category literally named
`/^a$/` (the string coercion of the stored terminal `/^a$/`), reachable from
the start, plus a production of `S` registered once as the raw source `a`
and once as the pre-anchored source `^a$`. -/
def gC6base : Grammar :=
  (((mkGrammar "S").addRule "S" [.arr [.nt "/^a$/", .nt "Z"]]).addRule
    "/^a$/" [.rx "b"]).addRule "Z" [.rx "zz"]

/-- The counterexample grammar with `addRule( 'S', /a/ )`. -/
def gC6raw : Grammar := gC6base.addRule "S" [.rx "a"]

/-- The counterexample grammar with `addRule( 'S', /^a$/ )`. -/
def gC6pre : Grammar := gC6base.addRule "S" [.rx "^a$"]

/-- C6, counterexample.  Registering `r = a` and registering the
pre-anchored `^a$` give different parse results on the same grammar and
input: the stored terminal `/^a$/` completes a category literally named
`/^a$/` through the loose `==` comparison, while the doubly-anchored
`/^^a$$/` does not — one result against none, under default options.
Moreover the anchored terminal of the source `a|b` accepts the token `xb`,
which it does not match as a whole, so terminals do not always match one
whole token. -/
theorem addRule_prewrapped_counterexample :
    (Grammar.parse gC6raw (.toks [.vstr "b"]) {} 100).1 =
        .ok [.varr [.vstr "S", .varr [.vstr "/^a$/", .vstr "b"]]]
    ∧ (Grammar.parse gC6pre (.toks [.vstr "b"]) {} 100).1 = .ok []
    ∧ rxTest ("^" ++ "a|b" ++ "$") "xb" = true
    ∧ wholeTokenMatch "a|b" "xb" = false :=
  ⟨rfl, rfl, rfl, rfl⟩

/-- C6.  `addRule( lhs, r )` rewraps the terminal before storage: the stored
source is the textually anchored `^r$`.  Under the provisos that neither
anchored spelling `^r$` nor `^^r$$` is already stored in the grammar and
that no category name — start symbol included — equals the coerced strings
`/^r$/` or `/^^r$$/`, registering `r` and registering `^r$` produce equal
parse results on every input, options object and fuel.  The anchored
terminal matches exactly one whole token whenever `r` has no top-level
alternation. -/
theorem addRule_anchoring_semantics (g : Grammar) (lhsName r : String)
    (h1 : rulesReFree g.rules ("^" ++ r ++ "$") = true)
    (h2 : rulesReFree g.rules ("^" ++ ("^" ++ r ++ "$") ++ "$") = true)
    (h4 : rulesNtFree g.rules ("/" ++ ("^" ++ r ++ "$") ++ "/") = true)
    (h5 : rulesNtFree g.rules ("/" ++ ("^" ++ ("^" ++ r ++ "$") ++ "$") ++ "/") = true)
    (h6 : g.START ≠ "/" ++ ("^" ++ r ++ "$") ++ "/")
    (h7 : g.START ≠ "/" ++ ("^" ++ ("^" ++ r ++ "$") ++ "$") ++ "/") :
    rulesLookup (g.addRule lhsName [.rx r]).rules lhsName =
        some ((rulesLookup g.rules lhsName).getD [] ++ [[.re ("^" ++ r ++ "$")]])
    ∧ (∀ (inp : PInput) (p : PassedOptions) (fuel : Nat),
        ((g.addRule lhsName [.rx ("^" ++ r ++ "$")]).parse inp p fuel).1 =
          ((g.addRule lhsName [.rx r]).parse inp p fuel).1)
    ∧ (∀ s : String, '|' ∉ r.data → rxTest ("^" ++ r ++ "$") s = wholeTokenMatch r s) := by
  refine ⟨?_, ?_, ?_⟩
  · show rulesLookup (rulesInsert g.rules lhsName [.re ("^" ++ r ++ "$")]) lhsName = _
    rw [rulesLookup_insert lhsName _ g.rules lhsName, if_pos rfl]
  · intro inp p fuel
    show parseImpl (g.addRule lhsName [.rx ("^" ++ r ++ "$")])
        (objectAssign (g.addRule lhsName [.rx ("^" ++ r ++ "$")]).defaults p) inp fuel = _
    have hd : (g.addRule lhsName [.rx ("^" ++ r ++ "$")]).defaults = g.defaults := rfl
    have hd2 : (g.addRule lhsName [.rx r]).defaults = g.defaults := rfl
    rw [hd]
    show _ = parseImpl (g.addRule lhsName [.rx r])
        (objectAssign (g.addRule lhsName [.rx r]).defaults p) inp fuel
    rw [hd2]
    exact parseImpl_congr _ _
      (fun opts input fuel =>
        parseTokens_addRule_prewrapped g lhsName r h1 h2 h4 h5 h6 h7 opts input fuel)
      (objectAssign g.defaults p) inp fuel
  · intro s hs
    exact rxTest_wrap_no_alternation r hs s

/-- C6, witness: the provisos hold for a one-rule grammar over a fresh
start symbol, and the theorem's three conclusions follow for it. -/
theorem addRule_anchoring_semantics_witness :
    (rulesReFree (mkGrammar "S").rules ("^" ++ "a" ++ "$") = true
      ∧ rulesReFree (mkGrammar "S").rules ("^" ++ ("^" ++ "a" ++ "$") ++ "$") = true
      ∧ rulesNtFree (mkGrammar "S").rules ("/" ++ ("^" ++ "a" ++ "$") ++ "/") = true
      ∧ rulesNtFree (mkGrammar "S").rules ("/" ++ ("^" ++ ("^" ++ "a" ++ "$") ++ "$") ++ "/") = true
      ∧ (mkGrammar "S").START ≠ "/" ++ ("^" ++ "a" ++ "$") ++ "/"
      ∧ (mkGrammar "S").START ≠ "/" ++ ("^" ++ ("^" ++ "a" ++ "$") ++ "$") ++ "/")
    ∧ (rulesLookup ((mkGrammar "S").addRule "S" [.rx "a"]).rules "S" =
        some ((rulesLookup (mkGrammar "S").rules "S").getD [] ++ [[.re ("^" ++ "a" ++ "$")]])
      ∧ (∀ (inp : PInput) (p : PassedOptions) (fuel : Nat),
          (((mkGrammar "S").addRule "S" [.rx ("^" ++ "a" ++ "$")]).parse inp p fuel).1 =
            (((mkGrammar "S").addRule "S" [.rx "a"]).parse inp p fuel).1)
      ∧ (∀ s : String, '|' ∉ ("a" : String).data →
          rxTest ("^" ++ "a" ++ "$") s = wholeTokenMatch "a" s)) :=
  ⟨⟨rfl, rfl, rfl, rfl, by decide, by decide⟩,
    addRule_anchoring_semantics (mkGrammar "S") "S" "a" rfl rfl rfl rfl
      (by decide) (by decide)⟩

end EarleyJS
